import Mathlib

/-!
# Verification of the cimbar color-icon-matrix barcode codec

Shallow embedding of `cimbar/cimbar.py` (the orchestration core) together
with spec-modelled definitions for the collaborator modules that the
repository references but whose sources are not part of this tree
(`cell_positions`, `interleave`, `cimb_translator`, `bit_file`,
`reed_solomon_stream`, the fountain streams).  Definitions are translated
from the python source; definitions whose doc string starts with
`Modelled from the spec:` stand in for collaborator code that is absent,
following the specification's contracts for those collaborators.
-/

namespace Cimbar

/-! ## Page geometry constants (cimbar.py lines 48-59) -/

def TOTAL_SIZE : Nat := 1024
def BITS_PER_SYMBOL : Nat := 4
def BITS_PER_COLOR : Nat := 2
def BITS_PER_OP : Nat := BITS_PER_SYMBOL + BITS_PER_COLOR
def CELL_SIZE : Nat := 8
def CELL_SPACING : Nat := CELL_SIZE + 1
def CELL_DIMENSIONS : Nat := 112
def CELLS_OFFSET : Nat := 8
def ECC : Nat := 30
def INTERLEAVE_BLOCKS : Nat := 155
def INTERLEAVE_PARTITIONS : Nat := 2
def FOUNTAIN_BLOCKS : Nat := 10

/-! ## `_fountain_chunk_size` (cimbar.py lines 70-71)

`int((155-ecc) * bits_per_op * 10 / fountain_blocks)`.  For the argument
ranges used by the program the python float arithmetic is exact and
`int` truncates a nonnegative value, so natural division (floor) is the
faithful translation. -/

def fountain_chunk_size (ecc : Nat := ECC) (bits_per_op : Nat := BITS_PER_OP)
    (fountain_blocks : Nat := FOUNTAIN_BLOCKS) : Nat :=
  (155 - ecc) * bits_per_op * 10 / fountain_blocks

/-- The chunk size handed to `fountain_decoder_stream` in `decode`
(cimbar.py line 141). -/
def decode_fountain_chunk_size (ecc : Nat) : Nat := fountain_chunk_size ecc

/-- The chunk size handed to `fountain_encoder_stream` in `encode_iter`
(cimbar.py line 181); line 183 uses the same expression for `read_size`. -/
def encode_fountain_chunk_size (ecc : Nat) : Nat := fountain_chunk_size ecc

/-! ## `_decode_cell` (cimbar.py lines 78-96)

The two classifiers live in `cimb_translator.CimbDecoder`, which is not
part of this tree; they are abstracted as functions from the crop
rectangle to their result, so that the theorems can speak about exactly
which pixels each classifier was handed.  A PIL crop box
`(left, top, right, bottom)` selects the half-open pixel rectangle
`[left, right) x [top, bottom)`. -/

/-- A PIL crop box: `(left, top, right, bottom)`, right/bottom exclusive. -/
structure Rect where
  left : Int
  top : Int
  right : Int
  bottom : Int
deriving DecidableEq, Repr

def Rect.width (r : Rect) : Int := r.right - r.left

def Rect.height (r : Rect) : Int := r.bottom - r.top

/-- The drift hint supplied by `FloodDecodeOrder`: a base offset `(x, y)`
and the ordered search set `pairs`. -/
structure Drift where
  x : Int
  y : Int
  pairs : List (Int × Int)

/-- The crop box for the symbol classifier at drift offset `(dx, dy)`:
`img.crop((testX, testY, testX + CELL_SIZE, testY + CELL_SIZE))`
with `testX = x + drift.x + dx`, `testY = y + drift.y + dy`
(cimbar.py lines 81-83). -/
def symbolRect (x y : Int) (drift : Drift) (dx dy : Int) : Rect :=
  ⟨x + drift.x + dx, y + drift.y + dy,
   x + drift.x + dx + CELL_SIZE, y + drift.y + dy + CELL_SIZE⟩

/-- The crop box for the color classifier at the winning offset:
`color_img.crop((testX+1, testY+1, testX + CELL_SIZE-2, testY + CELL_SIZE-2))`
(cimbar.py line 95). -/
def colorRect (x y : Int) (drift : Drift) (dx dy : Int) : Rect :=
  ⟨x + drift.x + dx + 1, y + drift.y + dy + 1,
   x + drift.x + dx + (CELL_SIZE : Int) - 2, y + drift.y + dy + (CELL_SIZE : Int) - 2⟩

/-- State of the `for dx, dy in drift.pairs` loop: the running
`best_distance` plus, when they have been assigned, `best_bits`,
`best_dx`, `best_dy`.  `none` models the python locals being unbound. -/
structure CellLoopState where
  bestDistance : Nat
  best : Option (Nat × Int × Int)

/-- One iteration of the loop body of `_decode_cell` (lines 80-91):
`best_distance = min(min_distance, best_distance)`; if
`min_distance == best_distance` then `best_bits`/`best_dx`/`best_dy`
are (re)assigned. -/
def cellLoopStep (bits minDistance : Nat) (dx dy : Int) (st : CellLoopState) :
    CellLoopState :=
  let bd := min minDistance st.bestDistance
  { bestDistance := bd
    best := if minDistance = bd then some (bits, dx, dy) else st.best }

/-- The `for dx, dy in drift.pairs` loop of `_decode_cell`, including the
`if min_distance < 8: break` early exit.  `decodeSymbol` is the composite
`ct.decode_symbol(img.crop(...))`, abstracted over the crop rectangle. -/
def cellLoop (decodeSymbol : Rect → Nat × Nat) (x y : Int) (drift : Drift) :
    List (Int × Int) → CellLoopState → CellLoopState
  | [], st => st
  | (dx, dy) :: rest, st =>
    let r := decodeSymbol (symbolRect x y drift dx dy)
    let st' := cellLoopStep r.1 r.2 dx dy st
    if r.2 < 8 then st' else cellLoop decodeSymbol x y drift rest st'

/-- `_decode_cell` (cimbar.py lines 78-96).  Returns `none` when the
python function would raise `UnboundLocalError` at line 93 (no loop
iteration ever assigned `best_dx`).  On success the returned tuple is
`(best_bits + ct.decode_color(best_cell), best_dx, best_dy, best_distance)`. -/
def decode_cell (decodeSymbol : Rect → Nat × Nat) (decodeColor : Rect → Nat)
    (x y : Int) (drift : Drift) : Option (Nat × Int × Int × Nat) :=
  let st := cellLoop decodeSymbol x y drift drift.pairs ⟨1000, none⟩
  match st.best with
  | none => none
  | some (bits, dx, dy) =>
    some (bits + decodeColor (colorRect x y drift dx dy), dx, dy, st.bestDistance)

/-- The prefix of the drift pairs that the loop actually visits: every
pair up to and including the first whose symbol distance is `< 8`
(the `break` at line 91), or all pairs when no distance is `< 8`. -/
def visitedPairs (stop : (Int × Int) → Bool) : List (Int × Int) → List (Int × Int)
  | [] => []
  | p :: rest => if stop p then [p] else p :: visitedPairs stop rest

/-- The symbol-classifier distance for the patch tried at drift offset
`p`: the second component of `ct.decode_symbol(img.crop(...))`. -/
def symDistance (ds : Rect → Nat × Nat) (x y : Int) (drift : Drift)
    (p : Int × Int) : Nat :=
  (ds (symbolRect x y drift p.1 p.2)).2

/-- The symbol-classifier bits for the patch tried at drift offset `p`. -/
def symBits (ds : Rect → Nat × Nat) (x y : Int) (drift : Drift)
    (p : Int × Int) : Nat :=
  (ds (symbolRect x y drift p.1 p.2)).1

/-- The early-exit test of the loop: `min_distance < 8`. -/
def stopPair (ds : Rect → Nat × Nat) (x y : Int) (drift : Drift)
    (p : Int × Int) : Bool :=
  decide (symDistance ds x y drift p < 8)

/-- Modelled from the spec: `CimbDecoder.decode_color` (module
`cimb_translator`, absent from this tree).  The color classifier
projects the inset patch to a palette index `classifyColor r` in
`[0, 2^BITS_PER_COLOR)`; per the spec the decoded bit-packed cell is
`(color_id << BITS_PER_SYMBOL) | symbol_id` and `_decode_cell` computes
`best_bits + ct.decode_color(...)`, so `decode_color` returns the color
bits pre-shifted by `BITS_PER_SYMBOL`. -/
def cimb_decode_color (classifyColor : Rect → Nat) (r : Rect) : Nat :=
  classifyColor r <<< BITS_PER_SYMBOL

/-- Modelled from the spec: `CimbEncoder` (module `cimb_translator`,
absent from this tree) splits each `BITS_PER_OP`-bit group into the low
`BITS_PER_SYMBOL` bits (the symbol id). -/
def encoder_symbol_id (bits : Nat) : Nat := bits % 2 ^ BITS_PER_SYMBOL

/-- Modelled from the spec: the next `BITS_PER_COLOR` bits above the
symbol bits (the color id). -/
def encoder_color_id (bits : Nat) : Nat := bits / 2 ^ BITS_PER_SYMBOL % 2 ^ BITS_PER_COLOR

/-! ## `decode_iter` resource handling (cimbar.py lines 109-133)

`decode_iter` is a generator.  When `deskew` is truthy it creates a
`TemporaryDirectory` (line 113).  The explicit release (`with tempdir:
pass`, lines 131-133) sits after the cell loop, so it runs only when the
loop finishes normally; an exception raised while decoding a cell
propagates out of the generator and skips it.  A cell result of `none`
models an exception raised by `_decode_cell` for that cell. -/

/-- Sequences the per-cell results; the first exception aborts the loop. -/
def collectCells {α : Type} : List (Option α) → Option (List α)
  | [] => some []
  | none :: _ => none
  | some a :: rest => (collectCells rest).map (a :: ·)

/-- Outcome of one run of `decode_iter`: whether the temporary directory
was created, whether the explicit cleanup at lines 131-133 ran, and the
decoded values (`none` = the run raised). -/
structure DecodeIterRun (α : Type) where
  tempdirCreated : Bool
  cleanupRan : Bool
  result : Option (List α)
deriving DecidableEq, Repr

/-- Control-flow skeleton of `decode_iter` (cimbar.py lines 109-133). -/
def decode_iter_run {α : Type} (deskew : Bool) (cells : List (Option α)) :
    DecodeIterRun α :=
  match collectCells cells with
  | none => ⟨deskew, false, none⟩
  | some vs => ⟨deskew, deskew, some vs⟩

/-! ## `decode_iter` image selection (cimbar.py lines 109-121)

`should_preprocess = force_preprocess`; when deskewing,
`should_preprocess |= dims[0] < TOTAL_SIZE or dims[1] < TOTAL_SIZE`;
then `img = _preprocess_for_decode(color_img) if should_preprocess else
color_img`, and `_decode_cell(ct, img, color_img, ...)` receives `img`
for the symbol classifier and the untouched `color_img` for the color
classifier.  The cv2 sharpening filter itself is kept abstract. -/

structure DecodeImages (Img : Type) where
  symbolImage : Img
  colorImage : Img
  usedPreprocess : Bool

/-- Image selection of `decode_iter`: which image feeds the symbol
classifier and which feeds the color classifier. -/
def decode_iter_images {Img : Type} (preprocess : Img → Img)
    (deskewed src : Img) (dims : Nat × Nat) (force deskew : Bool) :
    DecodeImages Img :=
  let should := force ||
    (deskew && (decide (dims.1 < TOTAL_SIZE) || decide (dims.2 < TOTAL_SIZE)))
  let color := if deskew then deskewed else src
  ⟨if should then preprocess color else color, color, should⟩

/-! ## Image template and `encode` canvas (cimbar.py lines 151-175, 192-198) -/

/-- An sRGB raster image: PIL images expose a size and pixel access. -/
structure Img where
  width : Nat
  height : Nat
  px : Int → Int → Nat

/-- `Image.new('RGB', (w, h), color)`. -/
def imageNew (w h : Nat) (color : Nat) : Img := ⟨w, h, fun _ _ => color⟩

/-- PIL `Image.paste(tile, (ox, oy))`: writes the tile's pixels at the
given offset, clipped to the canvas; the pasted-into image keeps its
size. -/
def Img.paste (base tile : Img) (ox oy : Int) : Img :=
  ⟨base.width, base.height, fun i j =>
    if ox ≤ i ∧ i < ox + tile.width ∧ oy ≤ j ∧ j < oy + tile.height then
      tile.px (i - ox) (j - oy)
    else base.px i j⟩

/-- `_get_image_template` (cimbar.py lines 151-175): a `width x width`
canvas with the four anchors and the six guide pastes.  The bitmap
assets are loaded from files and are parameters here. -/
def get_image_template (width : Nat) (dark : Bool)
    (anchor anchor_br hguide vguide : Img) : Img :=
  let color : Nat := if dark then 0 else 16777215
  let img := imageNew width width color
  let w : Int := width
  let aw : Int := anchor.width
  let ah : Int := anchor.height
  let img := img.paste anchor 0 0
  let img := img.paste anchor 0 (w - ah)
  let img := img.paste anchor (w - aw) 0
  let img := img.paste anchor_br (w - aw) (w - ah)
  let gw : Int := hguide.width
  let img := img.paste hguide (w / 2 - gw / 2) 2
  let img := img.paste hguide (w / 2 - gw / 2) (w - 4)
  let img := img.paste hguide (w / 2 - gw - gw / 2) (w - 4)
  let img := img.paste hguide (w / 2 + gw - gw / 2) (w - 4)
  let img := img.paste vguide 2 (w / 2 - gw / 2)
  let img := img.paste vguide (w - 4) (w / 2 - gw / 2)
  img

/-- `encode` (cimbar.py lines 192-198): start from the template at
`TOTAL_SIZE` and paste one rendered tile per `(bits, x, y)` from
`encode_iter`.  The tile renderer (`CimbEncoder.encode`) is a
parameter. -/
def encode_image (dark : Bool) (anchor anchor_br hguide vguide : Img)
    (tile : Nat → Img) (ops : List (Nat × Int × Int)) : Img :=
  ops.foldl (fun im op => im.paste (tile op.1) op.2.1 op.2.2)
    (get_image_template TOTAL_SIZE dark anchor anchor_br hguide vguide)

/-! ## Byte-pipeline construction (cimbar.py lines 140-144, 178-185)

`fes = fountain_encoder_stream(...) if fountain else open(src_data)`,
`rss = reed_solomon_stream(fes, ecc) if ecc else fes` — python truthiness:
the Reed-Solomon stage is added exactly when `ecc != 0`.  The decode side
(lines 141-142) is symmetric. -/

/-- The shape of the chained byte stream: a raw file, optionally wrapped
by a fountain stream, optionally wrapped by a Reed-Solomon stream. -/
inductive Pipe : Type
  | file : Pipe
  | fountain (inner : Pipe) (chunkSize : Nat) : Pipe
  | reedSolomon (inner : Pipe) (ecc : Nat) : Pipe
deriving DecidableEq, Repr

/-- Whether a Reed-Solomon stage occurs anywhere in the chain. -/
def Pipe.hasRS : Pipe → Bool
  | .file => false
  | .fountain inner _ => inner.hasRS
  | .reedSolomon _ _ => true

/-- The byte transform a chain applies between the bit-packing layer and
the raw file, given the transforms of the two optional stages. -/
def Pipe.transform (rsT : Nat → List Nat → List Nat)
    (fT : Nat → List Nat → List Nat) : Pipe → List Nat → List Nat
  | .file, bs => bs
  | .fountain inner cs, bs => fT cs (inner.transform rsT fT bs)
  | .reedSolomon inner e, bs => rsT e (inner.transform rsT fT bs)

/-- The `fes` stream of `encode_iter` (cimbar.py line 181). -/
def encode_fes (ecc : Nat) (fountain : Bool) : Pipe :=
  if fountain then .fountain .file (fountain_chunk_size ecc) else .file

/-- The `rss` stream of `encode_iter` (cimbar.py line 182):
`reed_solomon_stream(fes, ecc) if ecc else fes`. -/
def encode_pipeline (ecc : Nat) (fountain : Bool) : Pipe :=
  if ecc ≠ 0 then .reedSolomon (encode_fes ecc fountain) ecc else encode_fes ecc fountain

/-- The `fds` stream of `decode` (cimbar.py line 141). -/
def decode_fds (ecc : Nat) (fountain : Bool) : Pipe :=
  if fountain then .fountain .file (fountain_chunk_size ecc) else .file

/-- The `rss` stream of `decode` (cimbar.py line 142):
`reed_solomon_stream(fds, ecc, mode='write') if ecc else fds`. -/
def decode_pipeline (ecc : Nat) (fountain : Bool) : Pipe :=
  if ecc ≠ 0 then .reedSolomon (decode_fds ecc fountain) ecc else decode_fds ecc fountain

/-! ## The identity-channel round trip (encode then decode)

The byte pipeline is `raw bytes -> [fountain] -> [reed-solomon] ->
bit-packed cells -> interleaved cell writes -> image` on encode and the
mirror on decode (cimbar.py lines 136-148 and 178-198).  The stream
collaborators (`bit_file`, `interleave`, `reed_solomon_stream`, the
fountain streams, `cell_positions`, `FloodDecodeOrder`,
`cimb_translator`) are absent from this tree and are modelled from the
spec below. -/

/-- Splits a list into `n` consecutive chunks of `k` elements (a final
chunk is short when the list runs out). -/
def chunkN {α : Type} (k : Nat) : Nat → List α → List (List α)
  | 0, _ => []
  | n + 1, l => l.take k :: chunkN k n (l.drop k)

/-- Splits a list into `n` chunks of exactly `k` elements, padding with
`pad` once the list runs out (fixed-size framing of a byte stream). -/
def padChunkN {α : Type} (pad : α) (k : Nat) : Nat → List α → List (List α)
  | 0, _ => []
  | n + 1, l =>
    (l.take k ++ List.replicate (k - l.length) pad) :: padChunkN pad k n (l.drop k)

/-- The MSB-first value of a bit list. -/
def bitsVal (l : List Bool) : Nat := l.foldl (fun a b => 2 * a + cond b 1 0) 0

/-- The eight MSB-first bits of a byte. -/
def byteBits (b : Nat) : List Bool :=
  [decide (b / 128 % 2 = 1), decide (b / 64 % 2 = 1), decide (b / 32 % 2 = 1),
   decide (b / 16 % 2 = 1), decide (b / 8 % 2 = 1), decide (b / 4 % 2 = 1),
   decide (b / 2 % 2 = 1), decide (b % 2 = 1)]

/-- The six MSB-first bits of a `BITS_PER_OP`-bit group value. -/
def groupBits (g : Nat) : List Bool :=
  [decide (g / 32 % 2 = 1), decide (g / 16 % 2 = 1), decide (g / 8 % 2 = 1),
   decide (g / 4 % 2 = 1), decide (g / 2 % 2 = 1), decide (g % 2 = 1)]

/-- The byte stream as one MSB-first bit stream. -/
def allBits (bytes : List Nat) : List Bool := (bytes.map byteBits).flatten

/-- Modelled from the spec: the number of data cells `cell_positions`
emits for the canonical geometry.  The anchor/guide exclusion mask is
geometry-derived: the 112 x 112 grid loses the 6 x 6 cells under each of
the four anchors, leaving 12544 - 144 = 12400 cells — the unique count
compatible with the 155 x 2 interleave and the byte-aligned page
capacity (12400 cells * 6 bits = 9300 bytes = 60 RS blocks of 155). -/
def num_cells : Nat := 12400

/-- `interleave_reverse` reports `block_size = N / (B * P)` = 40. -/
def block_size : Nat := num_cells / (INTERLEAVE_BLOCKS * INTERLEAVE_PARTITIONS)

/-- The size `S` of one of the `P` contiguous partitions = 6200. -/
def partition_size : Nat := num_cells / INTERLEAVE_PARTITIONS

/-- The page's byte capacity: 12400 cells * 6 bits / 8 = 9300. -/
def page_bytes : Nat := num_cells * BITS_PER_OP / 8

/-- Modelled from the spec: `bit_file` reads the byte stream MSB-first
in `BITS_PER_OP`-bit groups, zero-padding the final group; reads past
the end of the stream yield 0 (excess page capacity is padding).
`encode_iter` performs exactly one read per data cell. -/
def pageGroups (bytes : List Nat) : List Nat :=
  (padChunkN false BITS_PER_OP num_cells (allBits bytes)).map bitsVal

/-- Modelled from the spec: `interleave(cells, B, P)` — split the cell
list into `P` contiguous partitions of size `S`; within partition `p`
emit, for each stripe `s < B`, the positions `p*S + s`, `p*S + s + B`,
`p*S + s + 2B`, ....  Flattened over `b = p*B + s`, this is the
interleaved order as a list of canonical cell indices. -/
def interleaveOrder : List Nat :=
  ((List.range (INTERLEAVE_PARTITIONS * INTERLEAVE_BLOCKS)).map (fun b =>
    (List.range block_size).map (fun k =>
      (b / INTERLEAVE_BLOCKS) * partition_size + b % INTERLEAVE_BLOCKS
        + k * INTERLEAVE_BLOCKS))).flatten

/-- Modelled from the spec: `interleave_reverse` — the lookup from
canonical cell index to interleaved stream position (the inverse of
`interleaveOrder`). -/
def interleaveLookup (i : Nat) : Nat :=
  (i / partition_size) * partition_size
    + (i % partition_size % INTERLEAVE_BLOCKS) * block_size
    + i % partition_size / INTERLEAVE_BLOCKS

/-- The canonical stream position at interleaved position `t` (closed
form of `interleaveOrder`'s entries). -/
def orderFun (t : Nat) : Nat :=
  (t / block_size / INTERLEAVE_BLOCKS) * partition_size
    + t / block_size % INTERLEAVE_BLOCKS + t % block_size * INTERLEAVE_BLOCKS

/-- `decode` (line 147): the RS block a cell belongs to is
`interleave_lookup[i] // block_size`. -/
def blockOf (i : Nat) : Nat := interleaveLookup i / block_size

/-- An 8x8 icon tile as rendered onto the page: the palette flavor, the
icon index and the palette color index. -/
structure Tile where
  dark : Bool
  symbol : Nat
  color : Nat
deriving DecidableEq, Repr

/-- Modelled from the spec: `CimbEncoder.encode(bits)` splits the group
into the low `BITS_PER_SYMBOL` bits (icon index) and the next
`BITS_PER_COLOR` bits (palette color) and renders the tinted icon. -/
def cimb_encode_tile (dark : Bool) (bits : Nat) : Tile :=
  ⟨dark, bits % 2 ^ BITS_PER_SYMBOL, bits / 2 ^ BITS_PER_SYMBOL⟩

/-- Modelled from the spec: on the identity channel (the encoded image
fed back unmodified) the symbol classifier recovers the rendered icon
exactly, with distance 0. -/
def cimb_decode_symbol_tile (t : Tile) : Nat × Nat := (t.symbol, 0)

/-- Modelled from the spec: the color classifier recovers the palette
index and returns it pre-shifted by `BITS_PER_SYMBOL` (see
`cimb_decode_color`). -/
def cimb_decode_color_tile (t : Tile) : Nat := t.color <<< BITS_PER_SYMBOL

/-- The bits `_decode_cell` returns for a cell on the identity channel:
`best_bits + ct.decode_color(...)`. -/
def decodeCellValue (t : Tile) : Nat :=
  (cimb_decode_symbol_tile t).1 + cimb_decode_color_tile t

/-- The painted data area as a map from canonical cell index to tile:
`encode` pastes `ct.encode(bits)` for each `(bits, x, y)` from
`encode_iter`; later pastes overwrite earlier ones. -/
def writePage (dark : Bool) (assignments : List (Nat × Nat)) : Nat → Tile :=
  assignments.foldl
    (fun page iv => fun j => if j = iv.1 then cimb_encode_tile dark iv.2 else page j)
    (fun _ => cimb_encode_tile dark 0)

/-- Modelled from the spec: `decode_iter` yields each data cell exactly
once, in flood-fill order (`visitOrder`, some permutation of the
canonical indices), paired with its decoded bits. -/
def decodeIterPairs (page : Nat → Tile) (visitOrder : List Nat) :
    List (Nat × Nat) :=
  visitOrder.map (fun i => (i, decodeCellValue (page i)))

/-- `decode` (lines 145-148): collect `{i: bits}` and iterate
`sorted(decoding.items())`. -/
def sortedDecoding (page : Nat → Tile) (visitOrder : List Nat) :
    List (Nat × Nat) :=
  (decodeIterPairs page visitOrder).mergeSort (fun a b => decide (a.1 ≤ b.1))

/-- Modelled from the spec: `interleaved_writer` buffers the
`BITS_PER_OP`-bit groups per RS block and flushes blocks in ascending
block index; within a block the groups are written in arrival order
(ascending cell index, from the sorted iteration). -/
def writerGroups (pairs : List (Nat × Nat)) : List Nat :=
  ((List.range (INTERLEAVE_PARTITIONS * INTERLEAVE_BLOCKS)).map (fun blk =>
    (pairs.filter (fun iv => decide (blockOf iv.1 = blk))).map (fun iv => iv.2))).flatten

/-- The writer's byte output: the concatenated bit stream of all groups,
repacked into `page_bytes` bytes. -/
def groupsToBytes (groups : List Nat) : List Nat :=
  (chunkN 8 page_bytes ((groups.map groupBits).flatten)).map bitsVal

/-- Number of RS blocks needed for a data stream (the final short block
is zero-padded). -/
def rsBlockCount (ecc len : Nat) : Nat :=
  (len + (155 - ecc) - 1) / (155 - ecc)

/-- Modelled from the spec: `reed_solomon_stream` on encode consumes
`155 - ecc` data bytes at a time (zero-padding a final short block) and
emits 155 bytes, the data followed by `ecc` parity bytes.  Only the
GF(2^8) contract `rs_decode(rs_encode(b)) = b` matters on the identity
channel, so the parity content is opaque and modelled as zeros. -/
def rs_encode_stream (ecc : Nat) (data : List Nat) : List Nat :=
  ((padChunkN 0 (155 - ecc) (rsBlockCount ecc data.length) data).map
    (fun blk => blk ++ List.replicate ecc 0)).flatten

/-- Modelled from the spec: `reed_solomon_stream` on decode consumes
155-byte blocks and emits the corrected `155 - ecc` data bytes of
each. -/
def rs_decode_stream (ecc : Nat) (bytes : List Nat) : List Nat :=
  ((chunkN 155 (bytes.length / 155) bytes).map (fun blk => blk.take (155 - ecc))).flatten

/-- The number of fountain source blocks for a payload: the chunk wire
format is a 2-byte header (chunk index, source-block count) followed by
`chunk_size - 2` data bytes. -/
def fountainBlockCount (cs len : Nat) : Nat := (len + (cs - 2) - 1) / (cs - 2)

/-- Modelled from the spec: one numbered chunk of the fountain encoder
stream.  The spec's chunks are "some XOR combination over source
blocks, recorded in the chunk header"; the model emits the systematic
singletons, cycling through the source blocks, with a header sufficient
to identify the chunk (its index and the source-block count). -/
def fountainChunk (cs : Nat) (P : List Nat) (i : Nat) : List Nat :=
  i :: fountainBlockCount cs P.length ::
    (padChunkN 0 (cs - 2) (fountainBlockCount cs P.length) P).getD i []

/-- Modelled from the spec: the page's worth of the endless fountain
encoder stream — `encode_iter` reads `read_size = chunk_size` per read
and one page holds exactly `FOUNTAIN_BLOCKS = 10` chunks for every ecc
level (60 * (155 - ecc) data bytes / 6 * (155 - ecc) per chunk). -/
def fountain_encoder_page (cs : Nat) (P : List Nat) : List Nat :=
  ((List.range FOUNTAIN_BLOCKS).map (fun j =>
    fountainChunk cs P (j % fountainBlockCount cs P.length))).flatten

/-- Modelled from the spec: `fountain_decoder_stream` — parse the
received chunk-size frames, collect chunks by index (idempotent under
duplicates), and once source blocks `0..n-1` have all arrived write the
reassembled payload to the output sink (`none` = FountainIncomplete,
the output file is never produced). -/
def fountain_decoder (cs : Nat) (received : List Nat) : Option (List Nat) :=
  let frames := chunkN cs (received.length / cs) received
  let parsed := frames.map (fun f => (f.getD 0 0, f.getD 1 0, f.drop 2))
  match parsed with
  | [] => none
  | f0 :: _ =>
    if (List.range f0.2.1).all (fun i => parsed.any (fun c => decide (c.1 = i))) then
      some (((List.range f0.2.1).map (fun i =>
        ((parsed.find? (fun c => decide (c.1 = i))).map (fun c => c.2.2)).getD [])).flatten)
    else none

/-- The byte stream feeding the bit-packing layer on encode
(cimbar.py lines 181-182): the fountain page when `fountain`, the raw
payload otherwise; wrapped in the RS encoder when `ecc != 0`. -/
def encode_instream (ecc : Nat) (fountain : Bool) (P : List Nat) : List Nat :=
  let fes := if fountain then fountain_encoder_page (fountain_chunk_size ecc) P else P
  if ecc ≠ 0 then rs_encode_stream ecc fes else fes

/-- `encode` over the cell grid: paste the rendered tile of each
`BITS_PER_OP`-bit group at the interleaved cell positions. -/
def encode_page (dark : Bool) (ecc : Nat) (fountain : Bool) (P : List Nat) :
    Nat → Tile :=
  writePage dark (interleaveOrder.zip (pageGroups (encode_instream ecc fountain P)))

/-- The byte stream leaving the de-interleaving writer on decode
(cimbar.py lines 141-142), pushed through the RS decoder when
`ecc != 0` and then the fountain decoder (or straight to the output
file). -/
def decode_outstream (ecc : Nat) (fountain : Bool) (pageOut : List Nat) :
    Option (List Nat) :=
  let rsOut := if ecc ≠ 0 then rs_decode_stream ecc pageOut else pageOut
  if fountain then fountain_decoder (fountain_chunk_size ecc) rsOut else some rsOut

/-- `decode` of a painted page over the identity channel (no deskew, no
preprocess): flood-order per-cell decode, dict + sorted iteration,
de-interleaving writer, RS, fountain. -/
def decode_model (ecc : Nat) (fountain : Bool) (page : Nat → Tile)
    (visitOrder : List Nat) : Option (List Nat) :=
  decode_outstream ecc fountain
    (groupsToBytes (writerGroups (sortedDecoding page visitOrder)))

/-- The padded payload a full identity-channel round trip reproduces:
to the page's data capacity without the fountain layer, to a
source-block boundary with it. -/
def roundtrip_pad (ecc : Nat) (fountain : Bool) (len : Nat) : Nat :=
  if fountain
  then fountainBlockCount (fountain_chunk_size ecc) len
        * (fountain_chunk_size ecc - 2) - len
  else 60 * (155 - ecc) - len

/-! ## Theorems -/

/-- C7: for every ecc in [0, 155], `_fountain_chunk_size(ecc)` equals
`floor((155 - ecc) * BITS_PER_OP * 10 / FOUNTAIN_BLOCKS)`, which with
`BITS_PER_OP = 6` and `FOUNTAIN_BLOCKS = 10` is `6 * (155 - ecc)`
(750 bytes at the default `ecc = 30`), and the fountain encoder stream
(encode_iter, line 181) and fountain decoder stream (decode, line 141)
are constructed with this same value. -/
theorem C7_fountain_chunk_size (e : Nat) (_he : e ≤ 155) :
    fountain_chunk_size e = (155 - e) * BITS_PER_OP * 10 / FOUNTAIN_BLOCKS ∧
    fountain_chunk_size e = 6 * (155 - e) ∧
    fountain_chunk_size 30 = 750 ∧
    decode_fountain_chunk_size e = fountain_chunk_size e ∧
    encode_fountain_chunk_size e = fountain_chunk_size e := by
  refine ⟨rfl, ?_, by decide, rfl, rfl⟩
  simp only [fountain_chunk_size, BITS_PER_OP, BITS_PER_SYMBOL, BITS_PER_COLOR,
    FOUNTAIN_BLOCKS]
  omega

/-- Witness for C7 at the default ecc level 30. -/
theorem C7_fountain_chunk_size_witness :
    (30 ≤ 155) ∧
    (fountain_chunk_size 30 = (155 - 30) * BITS_PER_OP * 10 / FOUNTAIN_BLOCKS ∧
     fountain_chunk_size 30 = 6 * (155 - 30) ∧
     fountain_chunk_size 30 = 750 ∧
     decode_fountain_chunk_size 30 = fountain_chunk_size 30 ∧
     encode_fountain_chunk_size 30 = fountain_chunk_size 30) :=
  ⟨by decide, C7_fountain_chunk_size 30 (by decide)⟩

/-- C9: with `ecc = 0` the construction `reed_solomon_stream(..., ecc) if
ecc else ...` adds no Reed-Solomon stage on either side: the encode
pipeline equals its `fes` stream and the decode pipeline equals its
`fds` stream, neither contains a Reed-Solomon stage, and the byte
transform between the bit-packing layer and the fountain layer (or the
raw file) is the same with or without the skipped stage — bytes pass
through unchanged. -/
theorem C9_no_rs_when_ecc_zero (f : Bool) :
    encode_pipeline 0 f = encode_fes 0 f ∧
    decode_pipeline 0 f = decode_fds 0 f ∧
    (encode_pipeline 0 f).hasRS = false ∧
    (decode_pipeline 0 f).hasRS = false ∧
    ∀ (rsT fT : Nat → List Nat → List Nat) (bytes : List Nat),
      (encode_pipeline 0 f).transform rsT fT bytes
          = (encode_fes 0 f).transform rsT fT bytes ∧
      (decode_pipeline 0 f).transform rsT fT bytes
          = (decode_fds 0 f).transform rsT fT bytes := by
  have he : encode_pipeline 0 f = encode_fes 0 f := by simp [encode_pipeline]
  have hd : decode_pipeline 0 f = decode_fds 0 f := by simp [decode_pipeline]
  refine ⟨he, hd, ?_, ?_, fun rsT fT bytes => ⟨by rw [he], by rw [hd]⟩⟩
  · rw [he]; cases f <;> simp [encode_fes, Pipe.hasRS]
  · rw [hd]; cases f <;> simp [decode_fds, Pipe.hasRS]

/-- Pasting never changes an image's dimensions (folded over any list of
paste operations). -/
theorem foldl_paste_dims (tile : Nat → Img) (ops : List (Nat × Int × Int)) :
    ∀ im : Img,
      (ops.foldl (fun im op => im.paste (tile op.1) op.2.1 op.2.2) im).width
          = im.width ∧
      (ops.foldl (fun im op => im.paste (tile op.1) op.2.1 op.2.2) im).height
          = im.height := by
  induction ops with
  | nil => exact fun im => ⟨rfl, rfl⟩
  | cons op rest ih =>
    intro im
    simpa using ih (im.paste (tile op.1) op.2.1 op.2.2)

/-- C8: for every payload (any list of cell-write operations produced by
`encode_iter`), the image produced by `encode` is exactly
`TOTAL_SIZE x TOTAL_SIZE = 1024 x 1024` pixels: the template is created
at that size and pasting tiles and fiducials never changes the
dimensions. -/
theorem C8_encode_image_dims (dark : Bool) (anchor anchor_br hguide vguide : Img)
    (tile : Nat → Img) (ops : List (Nat × Int × Int)) :
    (encode_image dark anchor anchor_br hguide vguide tile ops).width = 1024 ∧
    (encode_image dark anchor anchor_br hguide vguide tile ops).height = 1024 := by
  have h := foldl_paste_dims tile ops
    (get_image_template TOTAL_SIZE dark anchor anchor_br hguide vguide)
  exact ⟨h.1, h.2⟩

/-- C6: with deskew enabled, the sharpening preprocess feeds the symbol
classifier iff `force_preprocess` is set or either reported dimension of
the deskewed image is strictly below `TOTAL_SIZE = 1024`; at exactly
1024 x 1024 without `force_preprocess` the symbol image is the
unsharpened one; and the color classifier always receives the
unsharpened deskewed image. -/
theorem C6_preprocess_selection {Img : Type} (preprocess : Img → Img)
    (deskewed src : Img) (dims : Nat × Nat) (force : Bool) :
    (decode_iter_images preprocess deskewed src dims force true).usedPreprocess
        = (force || decide (dims.1 < 1024) || decide (dims.2 < 1024)) ∧
    (decode_iter_images preprocess deskewed src dims force true).colorImage
        = deskewed ∧
    (decode_iter_images preprocess deskewed src dims force true).symbolImage
        = (if force || decide (dims.1 < 1024) || decide (dims.2 < 1024)
           then preprocess deskewed else deskewed) ∧
    (force = false → dims = (1024, 1024) →
      (decode_iter_images preprocess deskewed src dims force true).usedPreprocess
          = false ∧
      (decode_iter_images preprocess deskewed src dims force true).symbolImage
          = deskewed) := by
  refine ⟨?_, rfl, ?_, ?_⟩
  · simp [decode_iter_images, TOTAL_SIZE, Bool.or_assoc]
  · simp [decode_iter_images, TOTAL_SIZE, Bool.or_assoc]
  · rintro rfl rfl
    simp [decode_iter_images, TOTAL_SIZE]

/-- Witness for C6: deskewed image reported at exactly 1024 x 1024
without force-preprocess: no sharpening, color image untouched. -/
theorem C6_preprocess_selection_witness :
    (decode_iter_images (fun n => n + 1) (0 : Nat) 7 (1024, 1024) false
        true).usedPreprocess
        = (false || decide ((1024 : Nat) < 1024) || decide ((1024 : Nat) < 1024)) ∧
    (decode_iter_images (fun n => n + 1) (0 : Nat) 7 (1024, 1024) false
        true).colorImage = 0 ∧
    (decode_iter_images (fun n => n + 1) (0 : Nat) 7 (1024, 1024) false
        true).symbolImage
        = (if false || decide ((1024 : Nat) < 1024) || decide ((1024 : Nat) < 1024)
           then (fun n => n + 1) 0 else 0) ∧
    (false = false → ((1024 : Nat), (1024 : Nat)) = (1024, 1024) →
      (decode_iter_images (fun n => n + 1) (0 : Nat) 7 (1024, 1024) false
          true).usedPreprocess = false ∧
      (decode_iter_images (fun n => n + 1) (0 : Nat) 7 (1024, 1024) false
          true).symbolImage = 0) :=
  C6_preprocess_selection (fun n => n + 1) 0 7 (1024, 1024) false

/-- `collectCells` fails exactly when some cell decode raised. -/
theorem collectCells_eq_none {α : Type} :
    ∀ cells : List (Option α), collectCells cells = none ↔ none ∈ cells := by
  intro cells
  induction cells with
  | nil => simp [collectCells]
  | cons c rest ih =>
    cases c with
    | none => simp [collectCells]
    | some a =>
      simp only [collectCells, List.mem_cons]
      constructor
      · intro h
        cases hr : collectCells rest with
        | none => exact Or.inr (ih.mp hr)
        | some vs => rw [hr] at h; simp [Option.map] at h
      · rintro (h | h)
        · exact absurd h (by simp)
        · rw [ih.mpr h]; rfl

/-- C5 (amended): the explicit release of the temporary directory
(`with tempdir: pass`, cimbar.py lines 131-133) runs exactly when the
directory was created (deskew enabled) and the cell-decoding loop
completed without raising; when an exception is raised while decoding
cells, the generator propagates it and the explicit cleanup is skipped. -/
theorem C5_tempdir_cleanup {α : Type} (deskew : Bool) (cells : List (Option α)) :
    (decode_iter_run deskew cells).tempdirCreated = deskew ∧
    (decode_iter_run deskew cells).cleanupRan
        = (deskew && (decode_iter_run deskew cells).result.isSome) ∧
    ((decode_iter_run deskew cells).result = none ↔ none ∈ cells) := by
  unfold decode_iter_run
  cases h : collectCells cells with
  | none =>
    exact ⟨rfl, by simp, iff_of_true rfl ((collectCells_eq_none cells).mp h)⟩
  | some vs =>
    refine ⟨rfl, by simp, iff_of_false (by simp) ?_⟩
    intro hc
    exact absurd ((collectCells_eq_none cells).mpr hc) (by simp [h])

/-- C5 counterexample: deskew enabled (temporary directory created) and
an exception raised while decoding the first cell: the run errors out
and the explicit cleanup does not run, contrary to the claim that the
directory is released on every exit path. -/
theorem C5_tempdir_counterexample :
    (decode_iter_run true ([none] : List (Option Nat))).tempdirCreated = true ∧
    (decode_iter_run true ([none] : List (Option Nat))).result = none ∧
    (decode_iter_run true ([none] : List (Option Nat))).cleanupRan = false :=
  ⟨rfl, rfl, rfl⟩

/-! ### The `_decode_cell` drift-search loop -/

/-- Once `best_bits`/`best_dx`/`best_dy` have been assigned they stay
assigned for the rest of the loop. -/
theorem cellLoop_best_isSome (ds : Rect → Nat × Nat) (x y : Int) (drift : Drift) :
    ∀ (pairs : List (Int × Int)) (st : CellLoopState), st.best.isSome →
      (cellLoop ds x y drift pairs st).best.isSome := by
  intro pairs
  induction pairs with
  | nil => intro st h; exact h
  | cons p rest ih =>
    obtain ⟨dx, dy⟩ := p
    intro st h
    simp only [cellLoop]
    split
    · simp only [cellLoopStep]
      split
      · simp
      · exact h
    · apply ih
      simp only [cellLoopStep]
      split
      · simp
      · exact h

/-- Pulling the initial value out of a fold of minima. -/
theorem foldr_min_init (g : Int × Int → Nat) (a : Nat) :
    ∀ (l : List (Int × Int)) (b : Nat),
      l.foldr (fun p m => min (g p) m) (min a b)
          = min a (l.foldr (fun p m => min (g p) m) b) := by
  intro l
  induction l with
  | nil => intro b; rfl
  | cons c tl ih =>
    intro b
    simp only [List.foldr_cons, ih]
    omega

/-- A fold of minima never exceeds its initial value. -/
theorem foldr_min_le_init (g : Int × Int → Nat) :
    ∀ (l : List (Int × Int)) (b : Nat),
      l.foldr (fun p m => min (g p) m) b ≤ b := by
  intro l
  induction l with
  | nil => intro b; exact Nat.le_refl b
  | cons c tl ih =>
    intro b
    simp only [List.foldr_cons]
    exact le_trans (Nat.min_le_right _ _) (ih b)

/-- Invariant of the `for dx, dy in drift.pairs` loop of `_decode_cell`,
for any starting `best_distance >= 8`: the final `best_distance` is the
minimum of the starting value and the distances of the visited prefix of
the pairs, and either no assignment happened (state unchanged) or the
winner is a visited pair whose distance equals the final
`best_distance`. -/
theorem cellLoop_spec (ds : Rect → Nat × Nat) (x y : Int) (drift : Drift) :
    ∀ (pairs : List (Int × Int)) (bd : Nat) (b₀ : Option (Nat × Int × Int)),
      8 ≤ bd →
      (cellLoop ds x y drift pairs ⟨bd, b₀⟩).bestDistance
          = (visitedPairs (stopPair ds x y drift) pairs).foldr
              (fun p m => min (symDistance ds x y drift p) m) bd ∧
      ((cellLoop ds x y drift pairs ⟨bd, b₀⟩).best = b₀ ∧
          (cellLoop ds x y drift pairs ⟨bd, b₀⟩).bestDistance = bd ∨
        ∃ p ∈ visitedPairs (stopPair ds x y drift) pairs,
          (cellLoop ds x y drift pairs ⟨bd, b₀⟩).best
              = some (symBits ds x y drift p, p.1, p.2) ∧
          symDistance ds x y drift p
              = (cellLoop ds x y drift pairs ⟨bd, b₀⟩).bestDistance) := by
  intro pairs
  induction pairs with
  | nil =>
    intro bd b₀ _
    exact ⟨rfl, Or.inl ⟨rfl, rfl⟩⟩
  | cons p rest ih =>
    obtain ⟨dx, dy⟩ := p
    intro bd b₀ hbd
    have hmd : (ds (symbolRect x y drift dx dy)).2
        = symDistance ds x y drift (dx, dy) := rfl
    set md := symDistance ds x y drift (dx, dy) with hmddef
    by_cases hstop : md < 8
    · -- early exit: `min_distance < 8` breaks out of the loop
      have hle : md ≤ bd := le_trans (Nat.le_of_lt hstop) hbd
      have hmin : min md bd = md := Nat.min_eq_left hle
      have hrun : cellLoop ds x y drift ((dx, dy) :: rest) ⟨bd, b₀⟩
          = ⟨min md bd, some ((ds (symbolRect x y drift dx dy)).1, dx, dy)⟩ := by
        simp only [cellLoop, cellLoopStep, hmd, ← hmddef]
        rw [if_pos (hmin.symm), if_pos hstop]
      have hvis : visitedPairs (stopPair ds x y drift) ((dx, dy) :: rest)
          = [(dx, dy)] := by
        simp only [visitedPairs, stopPair]
        rw [if_pos (by simpa using hstop)]
      rw [hrun, hvis]
      refine ⟨by simp [hmin], Or.inr ⟨(dx, dy), by simp, rfl, by simp [hmin]⟩⟩
    · -- no early exit: the loop continues on `rest`
      have hvis : visitedPairs (stopPair ds x y drift) ((dx, dy) :: rest)
          = (dx, dy) :: visitedPairs (stopPair ds x y drift) rest := by
        simp only [visitedPairs, stopPair]
        rw [if_neg (by simpa using hstop)]
      by_cases hle : md ≤ bd
      · -- assignment: `min_distance == best_distance` after the update
        have hmin : min md bd = md := Nat.min_eq_left hle
        have h8 : 8 ≤ md := Nat.le_of_not_lt hstop
        have hrun : cellLoop ds x y drift ((dx, dy) :: rest) ⟨bd, b₀⟩
            = cellLoop ds x y drift rest
                ⟨md, some ((ds (symbolRect x y drift dx dy)).1, dx, dy)⟩ := by
          simp only [cellLoop, cellLoopStep, hmd, ← hmddef]
          rw [if_pos (hmin.symm), if_neg hstop, hmin]
        obtain ⟨ih1, ih2⟩ := ih md (some ((ds (symbolRect x y drift dx dy)).1, dx, dy)) h8
        constructor
        · rw [hrun, ih1, hvis, List.foldr_cons, ← hmin, foldr_min_init]
        · rw [hrun, hvis]
          rcases ih2 with ⟨hbest, hdist⟩ | ⟨q, hq, hbest, hdist⟩
          · refine Or.inr ⟨(dx, dy), by simp, ?_, ?_⟩
            · rw [hbest]; rfl
            · rw [hdist]
          · exact Or.inr ⟨q, List.mem_cons_of_mem _ hq, hbest, hdist⟩
      · -- `min_distance > best_distance`: state unchanged this iteration
        have hgt : bd < md := Nat.lt_of_not_le hle
        have hmin : min md bd = bd := Nat.min_eq_right (Nat.le_of_lt hgt)
        have hrun : cellLoop ds x y drift ((dx, dy) :: rest) ⟨bd, b₀⟩
            = cellLoop ds x y drift rest ⟨bd, b₀⟩ := by
          simp only [cellLoop, cellLoopStep, hmd, ← hmddef]
          rw [if_neg hstop, if_neg (show ¬ md = md ⊓ bd by omega), hmin]
        obtain ⟨ih1, ih2⟩ := ih bd b₀ hbd
        constructor
        · rw [hrun, ih1, hvis, List.foldr_cons]
          have hle2 : (visitedPairs (stopPair ds x y drift) rest).foldr
              (fun p m => min (symDistance ds x y drift p) m) bd ≤ bd :=
            foldr_min_le_init _ _ _
          omega
        · rw [hrun, hvis]
          rcases ih2 with ⟨hbest, hdist⟩ | ⟨q, hq, hbest, hdist⟩
          · exact Or.inl ⟨hbest, hdist⟩
          · exact Or.inr ⟨q, List.mem_cons_of_mem _ hq, hbest, hdist⟩

/-- With no assignment yet, the loop ends unassigned exactly when every
pair's distance strictly exceeds the running `best_distance`. -/
theorem cellLoop_none_iff (ds : Rect → Nat × Nat) (x y : Int) (drift : Drift) :
    ∀ (pairs : List (Int × Int)) (bd : Nat), 8 ≤ bd →
      ((cellLoop ds x y drift pairs ⟨bd, none⟩).best = none ↔
        ∀ p ∈ pairs, bd < symDistance ds x y drift p) := by
  intro pairs
  induction pairs with
  | nil => intro bd _; simp [cellLoop]
  | cons p rest ih =>
    obtain ⟨dx, dy⟩ := p
    intro bd hbd
    have hmd : (ds (symbolRect x y drift dx dy)).2
        = symDistance ds x y drift (dx, dy) := rfl
    set md := symDistance ds x y drift (dx, dy) with hmddef
    by_cases hle : md ≤ bd
    · -- assignment happens: the loop cannot end unassigned
      have hmin : min md bd = md := Nat.min_eq_left hle
      have hsome : (cellLoop ds x y drift ((dx, dy) :: rest) ⟨bd, none⟩).best.isSome := by
        simp only [cellLoop, cellLoopStep, hmd, ← hmddef]
        rw [if_pos (hmin.symm)]
        split
        · simp
        · exact cellLoop_best_isSome ds x y drift rest _ (by simp)
      constructor
      · intro h; rw [h] at hsome; simp at hsome
      · intro h
        exact absurd (h (dx, dy) (List.mem_cons_self _ _)) (by omega)
    · -- distance above the running best: state unchanged
      have hgt : bd < md := Nat.lt_of_not_le hle
      have hmin : min md bd = bd := Nat.min_eq_right (Nat.le_of_lt hgt)
      have hstop : ¬ md < 8 := by omega
      have hrun : cellLoop ds x y drift ((dx, dy) :: rest) ⟨bd, none⟩
          = cellLoop ds x y drift rest ⟨bd, none⟩ := by
        simp only [cellLoop, cellLoopStep, hmd, ← hmddef]
        rw [if_neg hstop, if_neg (show ¬ md = md ⊓ bd by omega), hmin]
      rw [hrun, ih bd hbd]
      constructor
      · intro h q hq
        rcases List.mem_cons.mp hq with rfl | hq'
        · exact hgt
        · exact h q hq'
      · intro h q hq
        exact h q (List.mem_cons_of_mem _ hq)

/-- The visited prefix really is a prefix of the pair list. -/
theorem visitedPairs_append (stop : (Int × Int) → Bool) :
    ∀ l : List (Int × Int), ∃ rest, l = visitedPairs stop l ++ rest := by
  intro l
  induction l with
  | nil => exact ⟨[], rfl⟩
  | cons a tl ih =>
    by_cases h : stop a
    · exact ⟨tl, by simp [visitedPairs, h]⟩
    · obtain ⟨rest, hrest⟩ := ih
      exact ⟨rest, by simp [visitedPairs, h]; exact hrest⟩

/-- Every visited pair except possibly the last one failed the early-exit
test. -/
theorem visitedPairs_dropLast (stop : (Int × Int) → Bool) :
    ∀ l : List (Int × Int), ∀ p ∈ (visitedPairs stop l).dropLast,
      stop p = false := by
  intro l
  induction l with
  | nil => intro p hp; simp [visitedPairs] at hp
  | cons a tl ih =>
    intro p hp
    by_cases h : stop a
    · simp [visitedPairs, h] at hp
    · rw [visitedPairs, if_neg h] at hp
      cases htl : visitedPairs stop tl with
      | nil => rw [htl] at hp; simp at hp
      | cons b bs =>
        rw [htl] at hp
        rw [List.dropLast_cons₂] at hp
        rcases List.mem_cons.mp hp with rfl | hp'
        · exact Bool.eq_false_iff.mpr h
        · exact ih p (by rw [htl]; exact hp')

/-- Shared characterization of a successful `_decode_cell` run: the
returned distance is the minimum over the visited prefix (capped at the
initial 1000), the winning offset is a visited pair achieving that
minimum, and the returned bits are the winner's symbol bits plus the
color classifier's result on the inset patch at the winning offset. -/
theorem decode_cell_some_spec (ds : Rect → Nat × Nat) (dc : Rect → Nat)
    (x y : Int) (drift : Drift) (b : Nat) (dx dy : Int) (dist : Nat)
    (h : decode_cell ds dc x y drift = some (b, dx, dy, dist)) :
    dist = (visitedPairs (stopPair ds x y drift) drift.pairs).foldr
        (fun p m => min (symDistance ds x y drift p) m) 1000 ∧
    (dx, dy) ∈ visitedPairs (stopPair ds x y drift) drift.pairs ∧
    symDistance ds x y drift (dx, dy) = dist ∧
    b = symBits ds x y drift (dx, dy) + dc (colorRect x y drift dx dy) := by
  simp only [decode_cell] at h
  obtain ⟨h1, h2⟩ := cellLoop_spec ds x y drift drift.pairs 1000 none (by omega)
  cases hbest : (cellLoop ds x y drift drift.pairs ⟨1000, none⟩).best with
  | none => rw [hbest] at h; simp at h
  | some v =>
    obtain ⟨bits, wdx, wdy⟩ := v
    rw [hbest] at h
    simp only [Option.some.injEq, Prod.mk.injEq] at h
    obtain ⟨hb, hdx, hdy, hdist⟩ := h
    rcases h2 with ⟨hnone, _⟩ | ⟨q, hq, hsome, hqdist⟩
    · rw [hbest] at hnone; simp at hnone
    · obtain ⟨q1, q2⟩ := q
      rw [hbest] at hsome
      simp only [Option.some.injEq, Prod.mk.injEq] at hsome
      obtain ⟨hbits, hqdx, hqdy⟩ := hsome
      subst hdx
      subst hdy
      subst hdist
      subst hb
      subst hqdx
      subst hqdy
      exact ⟨h1, hq, hqdist, by rw [hbits]⟩

/-- C4: `_decode_cell` tries the drift offsets of `drift.pairs` in
order, cropping the CELL_SIZE x CELL_SIZE patch at
`(x + drift.x + dx, y + drift.y + dy)` from the preprocessed image for
each pair, tracks the running minimum symbol distance with its
`(dx, dy, bits)`, stops as soon as a pair's distance is strictly below
8, and returns that minimum distance (capped at the initial 1000) with
the winning offset and bits.  The visited prefix is every pair up to
and including the first with distance < 8; all earlier visited pairs
have distance >= 8. -/
theorem C4_decode_cell_search (ds : Rect → Nat × Nat) (dc : Rect → Nat)
    (x y : Int) (drift : Drift) (b : Nat) (dx dy : Int) (dist : Nat)
    (h : decode_cell ds dc x y drift = some (b, dx, dy, dist)) :
    (∃ rest, drift.pairs
        = visitedPairs (stopPair ds x y drift) drift.pairs ++ rest) ∧
    (∀ p ∈ (visitedPairs (stopPair ds x y drift) drift.pairs).dropLast,
        8 ≤ symDistance ds x y drift p) ∧
    dist = (visitedPairs (stopPair ds x y drift) drift.pairs).foldr
        (fun p m => min (symDistance ds x y drift p) m) 1000 ∧
    (dx, dy) ∈ visitedPairs (stopPair ds x y drift) drift.pairs ∧
    symDistance ds x y drift (dx, dy) = dist ∧
    (ds (symbolRect x y drift dx dy)).2 = dist ∧
    b = (ds (symbolRect x y drift dx dy)).1 + dc (colorRect x y drift dx dy) := by
  obtain ⟨h1, h2, h3, h4⟩ := decode_cell_some_spec ds dc x y drift b dx dy dist h
  refine ⟨visitedPairs_append _ _, ?_, h1, h2, h3, h3, h4⟩
  intro p hp
  have := visitedPairs_dropLast (stopPair ds x y drift) drift.pairs p hp
  simp only [stopPair, decide_eq_false_iff_not, Nat.not_lt] at this
  exact this

/-- Witness for C4: a single drift pair `(0,0)` whose distance 5 takes
the early exit; the returned tuple is the winner's bits plus color. -/
theorem C4_decode_cell_search_witness :
    ((∃ rest, (Drift.mk 0 0 [(0, 0)]).pairs
        = visitedPairs (stopPair (fun _ => (3, 5)) 0 0 ⟨0, 0, [(0, 0)]⟩)
            (Drift.mk 0 0 [(0, 0)]).pairs ++ rest) ∧
      (∀ p ∈ (visitedPairs (stopPair (fun _ => (3, 5)) 0 0 ⟨0, 0, [(0, 0)]⟩)
          (Drift.mk 0 0 [(0, 0)]).pairs).dropLast,
        8 ≤ symDistance (fun _ => (3, 5)) 0 0 ⟨0, 0, [(0, 0)]⟩ p) ∧
      (5 : Nat) = (visitedPairs (stopPair (fun _ => (3, 5)) 0 0 ⟨0, 0, [(0, 0)]⟩)
          (Drift.mk 0 0 [(0, 0)]).pairs).foldr
            (fun p m => min (symDistance (fun _ => (3, 5)) 0 0 ⟨0, 0, [(0, 0)]⟩ p) m)
            1000 ∧
      ((0 : Int), (0 : Int)) ∈ visitedPairs
          (stopPair (fun _ => (3, 5)) 0 0 ⟨0, 0, [(0, 0)]⟩)
          (Drift.mk 0 0 [(0, 0)]).pairs ∧
      symDistance (fun _ => (3, 5)) 0 0 ⟨0, 0, [(0, 0)]⟩ (0, 0) = 5 ∧
      ((fun (_ : Rect) => ((3 : Nat), (5 : Nat)))
          (symbolRect 0 0 ⟨0, 0, [(0, 0)]⟩ 0 0)).2 = 5 ∧
      (3 : Nat) = ((fun (_ : Rect) => ((3 : Nat), (5 : Nat)))
          (symbolRect 0 0 ⟨0, 0, [(0, 0)]⟩ 0 0)).1
            + (fun (_ : Rect) => (0 : Nat)) (colorRect 0 0 ⟨0, 0, [(0, 0)]⟩ 0 0)) :=
  C4_decode_cell_search (fun _ => (3, 5)) (fun _ => 0) 0 0 ⟨0, 0, [(0, 0)]⟩
    3 0 0 5 (by decide)

/-- C10: `_decode_cell` returns normally iff some drift pair's symbol
distance is at most the initial threshold 1000; with an empty
`drift.pairs`, or when every pair's distance strictly exceeds 1000,
`best_bits`/`best_dx`/`best_dy` are never assigned and line 93 raises
`UnboundLocalError` (modelled as `none`). -/
theorem C10_decode_cell_unbound (ds : Rect → Nat × Nat) (dc : Rect → Nat)
    (x y : Int) (drift : Drift) :
    (decode_cell ds dc x y drift = none ↔
        ∀ p ∈ drift.pairs, 1000 < symDistance ds x y drift p) ∧
    ((decode_cell ds dc x y drift).isSome ↔
        ∃ p ∈ drift.pairs, symDistance ds x y drift p ≤ 1000) ∧
    (drift.pairs = [] → decode_cell ds dc x y drift = none) := by
  have hloop := cellLoop_none_iff ds x y drift drift.pairs 1000 (by omega)
  have hmatch : decode_cell ds dc x y drift = none ↔
      (cellLoop ds x y drift drift.pairs ⟨1000, none⟩).best = none := by
    simp only [decode_cell]
    cases (cellLoop ds x y drift drift.pairs ⟨1000, none⟩).best with
    | none => simp
    | some v => obtain ⟨bits, dx, dy⟩ := v; simp
  have hiff : decode_cell ds dc x y drift = none ↔
      ∀ p ∈ drift.pairs, 1000 < symDistance ds x y drift p := hmatch.trans hloop
  refine ⟨hiff, ?_, ?_⟩
  · rw [← Option.not_isSome_iff_eq_none] at hiff
    constructor
    · intro hs
      by_contra hnone
      push_neg at hnone
      exact (hiff.mpr (fun p hp => hnone p hp)) hs
    · rintro ⟨p, hp, hple⟩
      by_contra hns
      exact absurd (hiff.mp hns p hp) (by omega)
  · intro hnil
    exact hiff.mpr (by rw [hnil]; intro p hp; simp at hp)

/-- C2: the decoded cell packs the two channels as
`(color_id << BITS_PER_SYMBOL) | symbol_id`: with the spec-modelled
`CimbDecoder.decode_color` returning the pre-shifted color bits, a
successful `_decode_cell` returns `best_bits + decode_color(...)`,
which for a symbol id below `2^BITS_PER_SYMBOL` and a color id below
`2^BITS_PER_COLOR` equals the bitwise-or packing, and the encoder's
split (low BITS_PER_SYMBOL bits = symbol, next BITS_PER_COLOR bits =
color) recovers both ids. -/
theorem C2_decode_cell_packing (ds : Rect → Nat × Nat) (cc : Rect → Nat)
    (x y : Int) (drift : Drift)
    (hsym : ∀ r, (ds r).1 < 2 ^ BITS_PER_SYMBOL)
    (hcol : ∀ r, cc r < 2 ^ BITS_PER_COLOR)
    (b : Nat) (dx dy : Int) (dist : Nat)
    (h : decode_cell ds (cimb_decode_color cc) x y drift = some (b, dx, dy, dist)) :
    b = (cc (colorRect x y drift dx dy) <<< BITS_PER_SYMBOL)
          ||| (ds (symbolRect x y drift dx dy)).1 ∧
    encoder_symbol_id b = (ds (symbolRect x y drift dx dy)).1 ∧
    encoder_color_id b = cc (colorRect x y drift dx dy) := by
  obtain ⟨-, -, -, hb⟩ :=
    decode_cell_some_spec ds (cimb_decode_color cc) x y drift b dx dy dist h
  have hs := hsym (symbolRect x y drift dx dy)
  have hc := hcol (colorRect x y drift dx dy)
  set s := (ds (symbolRect x y drift dx dy)).1 with hsdef
  set c := cc (colorRect x y drift dx dy) with hcdef
  have hbval : b = s + c * 16 := by
    rw [hb]
    simp only [symBits, cimb_decode_color, ← hsdef, ← hcdef]
    rw [Nat.shiftLeft_eq]
    norm_num [BITS_PER_SYMBOL]
  have hor : ∀ c' < 4, ∀ s' < 16, c' * 16 + s' = (c' * 16) ||| s' := by decide
  have hslt : s < 16 := by simpa [BITS_PER_SYMBOL] using hs
  have hclt : c < 4 := by simpa [BITS_PER_COLOR] using hc
  refine ⟨?_, ?_, ?_⟩
  · rw [hbval, Nat.shiftLeft_eq]
    show s + c * 2 ^ BITS_PER_SYMBOL = c * 2 ^ BITS_PER_SYMBOL ||| s
    norm_num [BITS_PER_SYMBOL]
    rw [← hor c hclt s hslt]
    omega
  · simp only [encoder_symbol_id, hbval, BITS_PER_SYMBOL]
    norm_num
    omega
  · simp only [encoder_color_id, hbval, BITS_PER_SYMBOL, BITS_PER_COLOR]
    norm_num
    omega

/-- Witness for C2: symbol id 5, color id 3, one drift pair; the packed
cell is `53 = (3 << 4) | 5`. -/
theorem C2_decode_cell_packing_witness :
    (53 : Nat) = ((3 : Nat) <<< BITS_PER_SYMBOL) ||| 5 ∧
    encoder_symbol_id 53 = 5 ∧
    encoder_color_id 53 = 3 :=
  C2_decode_cell_packing (fun _ => (5, 0)) (fun _ => 3) 0 0 ⟨0, 0, [(0, 0)]⟩
    (by intro r; show (5 : Nat) < 2 ^ BITS_PER_SYMBOL; decide)
    (by intro r; show (3 : Nat) < 2 ^ BITS_PER_COLOR; decide) 53 0 0 0 (by decide)

/-- C3 (amended): the patch handed to the color classifier is taken from
the unprocessed color image at the winning drift offset with crop box
`(tX+1, tY+1, tX+CELL_SIZE-2, tY+CELL_SIZE-2)` — inset 1 pixel on the
left and top but 2 pixels on the right and bottom, i.e. a
`(CELL_SIZE-3) x (CELL_SIZE-3) = 5 x 5` pixel square (PIL crop boxes are
right/bottom exclusive). -/
theorem C3_color_patch (ds : Rect → Nat × Nat) (dc : Rect → Nat)
    (x y : Int) (drift : Drift) (b : Nat) (dx dy : Int) (dist : Nat)
    (h : decode_cell ds dc x y drift = some (b, dx, dy, dist)) :
    b = symBits ds x y drift (dx, dy) + dc (colorRect x y drift dx dy) ∧
    (colorRect x y drift dx dy).left = x + drift.x + dx + 1 ∧
    (colorRect x y drift dx dy).top = y + drift.y + dy + 1 ∧
    (colorRect x y drift dx dy).right = x + drift.x + dx + CELL_SIZE - 2 ∧
    (colorRect x y drift dx dy).bottom = y + drift.y + dy + CELL_SIZE - 2 ∧
    (colorRect x y drift dx dy).width = (CELL_SIZE : Int) - 3 ∧
    (colorRect x y drift dx dy).height = (CELL_SIZE : Int) - 3 := by
  obtain ⟨-, -, -, hb⟩ := decode_cell_some_spec ds dc x y drift b dx dy dist h
  refine ⟨hb, rfl, rfl, rfl, rfl, ?_, ?_⟩
  · show (x + drift.x + dx + (CELL_SIZE : Int) - 2) - (x + drift.x + dx + 1)
        = (CELL_SIZE : Int) - 3
    ring
  · show (y + drift.y + dy + (CELL_SIZE : Int) - 2) - (y + drift.y + dy + 1)
        = (CELL_SIZE : Int) - 3
    ring

/-- C3 counterexample: a color classifier that reports the patch
dimensions (width * 100 + height) observes a 5 x 5 patch, not the
claimed `(CELL_SIZE-2) x (CELL_SIZE-2) = 6 x 6` patch. -/
theorem C3_color_patch_counterexample :
    decode_cell (fun _ => (0, 0))
        (fun r => r.width.toNat * 100 + r.height.toNat) 0 0 ⟨0, 0, [(0, 0)]⟩
      = some (505, 0, 0, 0) ∧
    (505 : Nat) ≠ 606 ∧
    (colorRect 0 0 ⟨0, 0, [(0, 0)]⟩ 0 0).width ≠ ((CELL_SIZE : Int) - 2) := by
  refine ⟨by decide, by decide, by decide⟩

/-- Witness for C3: a concrete successful decode whose color patch has
the stated crop box and 5 x 5 size. -/
theorem C3_color_patch_witness :
    (505 : Nat) = symBits (fun _ => (0, 0)) 0 0 ⟨0, 0, [(0, 0)]⟩ (0, 0)
        + (fun (r : Rect) => r.width.toNat * 100 + r.height.toNat)
            (colorRect 0 0 ⟨0, 0, [(0, 0)]⟩ 0 0) ∧
    (colorRect 0 0 ⟨0, 0, [(0, 0)]⟩ 0 0).left = 0 + 0 + 0 + 1 ∧
    (colorRect 0 0 ⟨0, 0, [(0, 0)]⟩ 0 0).top = 0 + 0 + 0 + 1 ∧
    (colorRect 0 0 ⟨0, 0, [(0, 0)]⟩ 0 0).right = 0 + 0 + 0 + CELL_SIZE - 2 ∧
    (colorRect 0 0 ⟨0, 0, [(0, 0)]⟩ 0 0).bottom = 0 + 0 + 0 + CELL_SIZE - 2 ∧
    (colorRect 0 0 ⟨0, 0, [(0, 0)]⟩ 0 0).width = (CELL_SIZE : Int) - 3 ∧
    (colorRect 0 0 ⟨0, 0, [(0, 0)]⟩ 0 0).height = (CELL_SIZE : Int) - 3 :=
  C3_color_patch (fun _ => (0, 0))
    (fun r => r.width.toNat * 100 + r.height.toNat) 0 0 ⟨0, 0, [(0, 0)]⟩
    505 0 0 0 (by decide)

/-! ### Bit/byte codec facts -/

set_option maxRecDepth 4096 in
theorem bitsVal_byteBits : ∀ b < 256, bitsVal (byteBits b) = b := by decide

theorem groupBits_bitsVal6 : ∀ a b c d e f : Bool,
    groupBits (bitsVal [a, b, c, d, e, f]) = [a, b, c, d, e, f] := by decide

theorem bitsVal6_lt : ∀ a b c d e f : Bool, bitsVal [a, b, c, d, e, f] < 64 := by
  decide

theorem byteBits_zero : byteBits 0 = List.replicate 8 false := by decide

theorem decodeCellValue_encode_tile :
    ∀ (dark : Bool), ∀ bits < 64,
      decodeCellValue (cimb_encode_tile dark bits) = bits := by decide

theorem exists_six (l : List Bool) (hl : l.length = 6) :
    ∃ a b c d e f, l = [a, b, c, d, e, f] := by
  rcases l with _ | ⟨a, _ | ⟨b, _ | ⟨c, _ | ⟨d, _ | ⟨e, _ | ⟨f, _ | ⟨g, tl⟩⟩⟩⟩⟩⟩⟩ <;>
    simp at hl
  exact ⟨a, b, c, d, e, f, rfl⟩

theorem groupBits_bitsVal_len (l : List Bool) (hl : l.length = 6) :
    groupBits (bitsVal l) = l := by
  obtain ⟨a, b, c, d, e, f, rfl⟩ := exists_six l hl
  exact groupBits_bitsVal6 a b c d e f

theorem bitsVal_lt_len (l : List Bool) (hl : l.length = 6) : bitsVal l < 64 := by
  obtain ⟨a, b, c, d, e, f, rfl⟩ := exists_six l hl
  exact bitsVal6_lt a b c d e f

/-! ### Chunking lemmas -/

theorem padChunkN_length {α : Type} (pad : α) (k : Nat) :
    ∀ (n : Nat) (l : List α), (padChunkN pad k n l).length = n := by
  intro n
  induction n with
  | zero => intro l; rfl
  | succ m ih => intro l; simp [padChunkN, ih]

theorem padChunkN_chunks_length {α : Type} (pad : α) (k : Nat) :
    ∀ (n : Nat) (l : List α), ∀ c ∈ padChunkN pad k n l, c.length = k := by
  intro n
  induction n with
  | zero => intro l c hc; simp [padChunkN] at hc
  | succ m ih =>
    intro l c hc
    simp only [padChunkN, List.mem_cons] at hc
    rcases hc with rfl | hc
    · simp only [List.length_append, List.length_take, List.length_replicate]
      omega
    · exact ih _ c hc

theorem padChunkN_flatten {α : Type} (pad : α) (k : Nat) :
    ∀ (n : Nat) (l : List α), l.length ≤ n * k →
      (padChunkN pad k n l).flatten = l ++ List.replicate (n * k - l.length) pad := by
  intro n
  induction n with
  | zero =>
    intro l hl
    have : l = [] := List.eq_nil_of_length_eq_zero (by omega)
    subst this
    simp [padChunkN]
  | succ m ih =>
    intro l hl
    rw [Nat.succ_mul] at hl
    simp only [padChunkN, List.flatten_cons]
    rw [ih (l.drop k) (by rw [List.length_drop]; set q := m * k; omega)]
    rw [List.length_drop]
    by_cases h : k ≤ l.length
    · rw [Nat.sub_eq_zero_of_le h]
      simp only [List.replicate_zero, List.append_nil]
      rw [← List.append_assoc, List.take_append_drop]
      have hcount : m * k - (l.length - k) = m * k + k - l.length := by
        set q := m * k; omega
      rw [hcount, Nat.succ_mul]
    · have hlt : l.length < k := by omega
      rw [List.take_of_length_le (by omega), List.drop_eq_nil_of_le (by omega)]
      simp only [List.nil_append, List.append_assoc]
      congr 1
      have h0 : l.length - k = 0 := by omega
      rw [h0, Nat.sub_zero, ← List.replicate_add]
      congr 1
      rw [Nat.succ_mul]
      set q := m * k
      omega

theorem chunkN_flatten {α : Type} (k : Nat) :
    ∀ ls : List (List α), (∀ c ∈ ls, c.length = k) →
      chunkN k ls.length ls.flatten = ls := by
  intro ls
  induction ls with
  | nil => intro _; rfl
  | cons x tl ih =>
    intro h
    have hx : x.length = k := h x (List.mem_cons_self _ _)
    simp only [List.flatten_cons, List.length_cons, chunkN]
    rw [List.take_left' hx, List.drop_left' hx]
    rw [ih (fun c hc => h c (List.mem_cons_of_mem _ hc))]

theorem flatten_length_const {α : Type} (k : Nat) :
    ∀ ls : List (List α), (∀ c ∈ ls, c.length = k) →
      ls.flatten.length = ls.length * k := by
  intro ls
  induction ls with
  | nil => intro _; simp
  | cons x tl ih =>
    intro h
    have hx := h x (List.mem_cons_self _ _)
    have htl := ih (fun c hc => h c (List.mem_cons_of_mem _ hc))
    simp only [List.flatten_cons, List.length_append, List.length_cons, hx, htl,
      Nat.succ_mul]
    exact Nat.add_comm _ _

/-! ### Indexing lemmas -/

theorem getD_map_range {α : Type} (d : α) (f : Nat → α) (n t : Nat) (ht : t < n) :
    ((List.range n).map f).getD t d = f t := by
  simp [List.getD_eq_getElem?_getD, List.getElem?_map, List.getElem?_range ht]

theorem map_getD_range {α : Type} (d : α) :
    ∀ l : List α, (List.range l.length).map (fun i => l.getD i d) = l := by
  intro l
  induction l with
  | nil => rfl
  | cons x tl ih =>
    simp only [List.length_cons, List.range_succ_eq_map, List.map_cons,
      List.getD_cons_zero, List.map_map]
    congr 1

theorem flatten_slices {α : Type} (d : α) :
    ∀ (n c : Nat) (l : List α), l.length = n * c →
      ((List.range n).map (fun b =>
        (List.range c).map (fun k => l.getD (b * c + k) d))).flatten = l := by
  intro n
  induction n with
  | zero =>
    intro c l hl
    rw [Nat.zero_mul] at hl
    have : l = [] := List.eq_nil_of_length_eq_zero hl
    subst this
    rfl
  | succ m ih =>
    intro c l hl
    rw [Nat.succ_mul] at hl
    have hc : c ≤ l.length := by rw [hl]; set q := m * c; omega
    rw [List.range_succ_eq_map]
    simp only [List.map_cons, List.flatten_cons, List.map_map]
    have htl : (l.take c).length = c := by
      rw [List.length_take, Nat.min_eq_left hc]
    have h1 : (List.range c).map (fun k => l.getD (0 * c + k) d) = l.take c := by
      calc (List.range c).map (fun k => l.getD (0 * c + k) d)
          = (List.range c).map (fun k => (l.take c).getD k d) := by
            apply List.map_congr_left
            intro k hk
            rw [List.mem_range] at hk
            simp only [Nat.zero_mul, Nat.zero_add]
            simp [List.getD_eq_getElem?_getD, List.getElem?_take, hk]
        _ = (List.range (l.take c).length).map (fun k => (l.take c).getD k d) := by
            rw [htl]
        _ = l.take c := map_getD_range d _
    have h2 : ((List.range m).map
        ((fun b => (List.range c).map (fun k => l.getD (b * c + k) d)) ∘
          Nat.succ)).flatten = l.drop c := by
      have hdl : (l.drop c).length = m * c := by
        rw [List.length_drop, hl, Nat.add_sub_cancel]
      rw [← ih c (l.drop c) hdl]
      congr 1
      apply List.map_congr_left
      intro b _
      simp only [Function.comp]
      apply List.map_congr_left
      intro k _
      have hidx : Nat.succ b * c + k = c + (b * c + k) := by
        rw [Nat.succ_mul]; ring
      rw [hidx, List.getD_eq_getElem?_getD, List.getD_eq_getElem?_getD,
        List.getElem?_drop]
    rw [h1, h2, List.take_append_drop]

theorem range_mul_flatten {α : Type} (f : Nat → α) :
    ∀ (n c : Nat), (List.range (n * c)).map f
      = ((List.range n).map (fun b =>
          (List.range c).map (fun k => f (b * c + k)))).flatten := by
  intro n
  induction n with
  | zero => intro c; simp
  | succ m ih =>
    intro c
    rw [Nat.succ_mul, List.range_add, List.map_append, ih c, List.range_succ,
      List.map_append, List.flatten_append]
    congr 1
    simp only [List.map_cons, List.map_nil, List.flatten_cons, List.flatten_nil,
      List.append_nil, List.map_map]
    apply List.map_congr_left
    intro k _
    simp [Function.comp]

/-! ### Interleave permutation facts

Every cell index decomposes as `i = 6200*p + 155*k + s` (partition `p`,
position-in-stripe `k`, stripe `s`) and every stream position as
`t = b*40 + k` with block `b = 155*p + s`; the lookup and order maps
swap these coordinates. -/

theorem partition_size_eq : partition_size = 6200 := by
  norm_num [partition_size, num_cells, INTERLEAVE_PARTITIONS]

theorem block_size_eq : block_size = 40 := by
  norm_num [block_size, num_cells, INTERLEAVE_BLOCKS, INTERLEAVE_PARTITIONS]

theorem cell_decomp (i : Nat) (hi : i < num_cells) :
    ∃ p k s, p < 2 ∧ k < 40 ∧ s < 155 ∧ i = 6200 * p + 155 * k + s := by
  have hi' : i < 12400 := hi
  exact ⟨i / 6200, i % 6200 / 155, i % 6200 % 155, by omega, by omega, by omega,
    by omega⟩

theorem stream_decomp (t : Nat) (ht : t < num_cells) :
    ∃ p s k, p < 2 ∧ s < 155 ∧ k < 40 ∧ t = (155 * p + s) * 40 + k := by
  have ht' : t < 12400 := ht
  exact ⟨t / 40 / 155, t / 40 % 155, t % 40, by omega, by omega, by omega,
    by omega⟩

theorem block_decomp (b : Nat) (hb : b < INTERLEAVE_PARTITIONS * INTERLEAVE_BLOCKS) :
    ∃ p s, p < 2 ∧ s < 155 ∧ b = 155 * p + s := by
  have hb' : b < 310 := hb
  exact ⟨b / 155, b % 155, by omega, by omega, by omega⟩

theorem interleaveLookup_eval (p k s : Nat) (hk : k < 40) (hs : s < 155) :
    interleaveLookup (6200 * p + 155 * k + s) = (155 * p + s) * 40 + k := by
  simp only [interleaveLookup, partition_size_eq, block_size_eq, INTERLEAVE_BLOCKS]
  have e1 : 6200 * p + 155 * k + s = 6200 * p + (155 * k + s) := by ring
  have e2 : 155 * k + s < 6200 := by omega
  have e3 : (6200 * p + 155 * k + s) / 6200 = p := by
    rw [e1, Nat.mul_add_div (by norm_num), Nat.div_eq_of_lt e2, Nat.add_zero]
  have e4 : (6200 * p + 155 * k + s) % 6200 = 155 * k + s := by
    rw [e1, Nat.mul_add_mod, Nat.mod_eq_of_lt e2]
  have e5 : (155 * k + s) % 155 = s := by
    rw [Nat.mul_add_mod, Nat.mod_eq_of_lt hs]
  have e6 : (155 * k + s) / 155 = k := by
    rw [Nat.mul_add_div (by norm_num), Nat.div_eq_of_lt hs, Nat.add_zero]
  rw [e3, e4, e5, e6]
  ring

theorem orderFun_eval (p k s : Nat) (hk : k < 40) (hs : s < 155) :
    orderFun ((155 * p + s) * 40 + k) = 6200 * p + 155 * k + s := by
  simp only [orderFun, partition_size_eq, block_size_eq, INTERLEAVE_BLOCKS]
  have e1 : (155 * p + s) * 40 + k = 40 * (155 * p + s) + k := by ring
  have e2 : ((155 * p + s) * 40 + k) / 40 = 155 * p + s := by
    rw [e1, Nat.mul_add_div (by norm_num), Nat.div_eq_of_lt hk, Nat.add_zero]
  have e3 : ((155 * p + s) * 40 + k) % 40 = k := by
    rw [e1, Nat.mul_add_mod, Nat.mod_eq_of_lt hk]
  have e4 : (155 * p + s) / 155 = p := by
    rw [Nat.mul_add_div (by norm_num), Nat.div_eq_of_lt hs, Nat.add_zero]
  have e5 : (155 * p + s) % 155 = s := by
    rw [Nat.mul_add_mod, Nat.mod_eq_of_lt hs]
  rw [e2, e3, e4, e5]
  ring

theorem blockOf_eval (p k s : Nat) (hk : k < 40) (hs : s < 155) :
    blockOf (6200 * p + 155 * k + s) = 155 * p + s := by
  rw [blockOf, interleaveLookup_eval p k s hk hs, block_size_eq]
  have e1 : (155 * p + s) * 40 + k = 40 * (155 * p + s) + k := by ring
  rw [e1, Nat.mul_add_div (by norm_num), Nat.div_eq_of_lt hk, Nat.add_zero]

theorem interleaveLookup_lt (i : Nat) (hi : i < num_cells) :
    interleaveLookup i < num_cells := by
  obtain ⟨p, k, s, hp, hk, hs, rfl⟩ := cell_decomp i hi
  rw [interleaveLookup_eval p k s hk hs]
  show _ < 12400
  have : p < 2 := hp
  nlinarith

theorem orderFun_lt (t : Nat) (ht : t < num_cells) : orderFun t < num_cells := by
  obtain ⟨p, s, k, hp, hs, hk, rfl⟩ := stream_decomp t ht
  rw [orderFun_eval p k s hk hs]
  show _ < 12400
  omega

theorem orderFun_interleaveLookup (i : Nat) (hi : i < num_cells) :
    orderFun (interleaveLookup i) = i := by
  obtain ⟨p, k, s, hp, hk, hs, rfl⟩ := cell_decomp i hi
  rw [interleaveLookup_eval p k s hk hs, orderFun_eval p k s hk hs]

theorem interleaveLookup_orderFun (t : Nat) (ht : t < num_cells) :
    interleaveLookup (orderFun t) = t := by
  obtain ⟨p, s, k, hp, hs, hk, rfl⟩ := stream_decomp t ht
  rw [orderFun_eval p k s hk hs, interleaveLookup_eval p k s hk hs]

theorem orderFun_stripe (b k : Nat)
    (hb : b < INTERLEAVE_PARTITIONS * INTERLEAVE_BLOCKS) (hk : k < block_size) :
    orderFun (b * block_size + k)
      = b / INTERLEAVE_BLOCKS * partition_size + b % INTERLEAVE_BLOCKS
          + k * INTERLEAVE_BLOCKS := by
  obtain ⟨p, s, hp, hs, rfl⟩ := block_decomp b hb
  rw [block_size_eq] at hk ⊢
  rw [orderFun_eval p k s hk hs, partition_size_eq]
  have e4 : (155 * p + s) / 155 = p := by
    rw [Nat.mul_add_div (by norm_num), Nat.div_eq_of_lt hs, Nat.add_zero]
  have e5 : (155 * p + s) % 155 = s := by
    rw [Nat.mul_add_mod, Nat.mod_eq_of_lt hs]
  rw [show INTERLEAVE_BLOCKS = 155 from rfl, e4, e5]
  ring

set_option maxRecDepth 8192 in
theorem interleaveLookup_stripe (b k : Nat)
    (hb : b < INTERLEAVE_PARTITIONS * INTERLEAVE_BLOCKS) (hk : k < block_size) :
    interleaveLookup (b / INTERLEAVE_BLOCKS * partition_size
        + b % INTERLEAVE_BLOCKS + k * INTERLEAVE_BLOCKS)
      = b * block_size + k := by
  obtain ⟨p, s, hp, hs, rfl⟩ := block_decomp b hb
  rw [block_size_eq] at hk ⊢
  have e4 : (155 * p + s) / 155 = p := by
    rw [Nat.mul_add_div (by norm_num), Nat.div_eq_of_lt hs, Nat.add_zero]
  have e5 : (155 * p + s) % 155 = s := by
    rw [Nat.mul_add_mod, Nat.mod_eq_of_lt hs]
  rw [show INTERLEAVE_BLOCKS = 155 from rfl, partition_size_eq, e4, e5]
  have harg : p * 6200 + s + k * 155 = 6200 * p + 155 * k + s := by ring
  rw [harg, interleaveLookup_eval p k s hk hs]

set_option maxRecDepth 8192 in
theorem interleaveOrder_eq :
    interleaveOrder = (List.range num_cells).map orderFun := by
  have h : num_cells = INTERLEAVE_PARTITIONS * INTERLEAVE_BLOCKS * block_size := by
    rw [block_size_eq]
    norm_num [num_cells, INTERLEAVE_PARTITIONS, INTERLEAVE_BLOCKS]
  rw [h, range_mul_flatten]
  unfold interleaveOrder
  refine congrArg List.flatten (List.map_congr_left ?_)
  intro b hb
  apply List.map_congr_left
  intro k hk
  rw [List.mem_range] at hb hk
  exact (orderFun_stripe b k hb hk).symm

theorem interleaveOrder_length : interleaveOrder.length = num_cells := by
  rw [interleaveOrder_eq, List.length_map, List.length_range]

theorem interleaveOrder_getD (t : Nat) (ht : t < num_cells) :
    interleaveOrder.getD t 0 = orderFun t := by
  rw [interleaveOrder_eq]
  exact getD_map_range 0 orderFun num_cells t ht

theorem interleaveOrder_nodup : interleaveOrder.Nodup := by
  rw [interleaveOrder_eq]
  apply List.Nodup.map_on ?_ (List.nodup_range _)
  intro x hx y hy hf
  rw [List.mem_range] at hx hy
  rw [← interleaveLookup_orderFun x hx, ← interleaveLookup_orderFun y hy, hf]

/-- Two lists that are a permutation of each other and both strictly
sorted on a numeric key are equal. -/
theorem eq_of_perm_keySorted {α : Type} (key : α → Nat) (l₁ l₂ : List α)
    (hp : l₁.Perm l₂) (h₁ : l₁.Pairwise (fun a b => key a < key b))
    (h₂ : l₂.Pairwise (fun a b => key a < key b)) : l₁ = l₂ := by
  haveI : IsAntisymm α (fun a b => key a < key b) :=
    ⟨fun a b hab hba => absurd (Nat.lt_trans hab hba) (Nat.lt_irrefl _)⟩
  exact List.eq_of_perm_of_sorted hp h₁ h₂

/-- The cells of RS block `blk`, listed in canonical order, are exactly
the `blk`-th interleave stripe. -/
theorem filter_blockOf_eq (blk : Nat)
    (hblk : blk < INTERLEAVE_PARTITIONS * INTERLEAVE_BLOCKS) :
    (List.range num_cells).filter (fun i => decide (blockOf i = blk))
      = (List.range block_size).map (fun k =>
          blk / INTERLEAVE_BLOCKS * partition_size + blk % INTERLEAVE_BLOCKS
            + k * INTERLEAVE_BLOCKS) := by
  obtain ⟨p, s, hp, hs, rfl⟩ := block_decomp blk hblk
  have e4 : (155 * p + s) / 155 = p := by
    rw [Nat.mul_add_div (by norm_num), Nat.div_eq_of_lt hs, Nat.add_zero]
  have e5 : (155 * p + s) % 155 = s := by
    rw [Nat.mul_add_mod, Nat.mod_eq_of_lt hs]
  have hform : ∀ k : Nat,
      (155 * p + s) / INTERLEAVE_BLOCKS * partition_size
          + (155 * p + s) % INTERLEAVE_BLOCKS + k * INTERLEAVE_BLOCKS
        = 6200 * p + 155 * k + s := by
    intro k
    rw [show INTERLEAVE_BLOCKS = 155 from rfl, partition_size_eq, e4, e5]
    ring
  have hsort1 : ((List.range num_cells).filter
      (fun i => decide (blockOf i = 155 * p + s))).Pairwise (· < ·) :=
    List.Pairwise.sublist (List.filter_sublist _) (List.pairwise_lt_range _)
  have hsort2 : ((List.range block_size).map (fun k =>
      (155 * p + s) / INTERLEAVE_BLOCKS * partition_size
        + (155 * p + s) % INTERLEAVE_BLOCKS
        + k * INTERLEAVE_BLOCKS)).Pairwise (· < ·) := by
    rw [List.pairwise_map]
    apply (List.pairwise_lt_range _).imp
    intro a b hab
    rw [hform a, hform b]
    omega
  have hnodup1 : ((List.range num_cells).filter
      (fun i => decide (blockOf i = 155 * p + s))).Nodup :=
    (List.nodup_range _).filter _
  have hnodup2 := hsort2.imp (fun h => Nat.ne_of_lt h)
  apply eq_of_perm_keySorted (fun i => i) _ _ ?_ hsort1 hsort2
  rw [List.perm_ext_iff_of_nodup hnodup1 hnodup2]
  intro i
  simp only [List.mem_filter, List.mem_range, List.mem_map, decide_eq_true_eq]
  constructor
  · rintro ⟨hi, hb⟩
    obtain ⟨p', k', s', hp', hk', hs', rfl⟩ := cell_decomp i hi
    rw [blockOf_eval p' k' s' hk' hs'] at hb
    have hps : p' = p ∧ s' = s := by omega
    refine ⟨k', by rw [block_size_eq]; exact hk', ?_⟩
    rw [hform k', hps.1, hps.2]
  · rintro ⟨k, hk, rfl⟩
    rw [block_size_eq] at hk
    rw [hform k]
    constructor
    · show _ < 12400
      omega
    · rw [blockOf_eval p k s hk hs]

/-! ### The painted page and its readback -/

theorem pageGroups_length (bytes : List Nat) :
    (pageGroups bytes).length = num_cells := by
  unfold pageGroups
  rw [List.length_map, padChunkN_length]

theorem pageGroups_lt (bytes : List Nat) : ∀ g ∈ pageGroups bytes, g < 64 := by
  intro g hg
  unfold pageGroups at hg
  rw [List.mem_map] at hg
  obtain ⟨c, hc, rfl⟩ := hg
  have hlen := padChunkN_chunks_length false BITS_PER_OP num_cells _ c hc
  exact bitsVal_lt_len c hlen

theorem getD_lt_64 (l : List Nat) (h : ∀ x ∈ l, x < 64) (n : Nat) :
    l.getD n 0 < 64 := by
  by_cases hn : n < l.length
  · rw [List.getD_eq_getElem?_getD, List.getElem?_eq_getElem hn]
    exact h _ (List.getElem_mem hn)
  · rw [List.getD_eq_getElem?_getD, List.getElem?_eq_none (by omega)]
    norm_num

theorem writeList_notMem (dark : Bool) :
    ∀ (A : List (Nat × Nat)) (base : Nat → Tile) (j : Nat),
      (∀ p ∈ A, p.1 ≠ j) →
      A.foldl (fun page iv => fun j' =>
        if j' = iv.1 then cimb_encode_tile dark iv.2 else page j') base j
        = base j := by
  intro A
  induction A with
  | nil => intro base j _; rfl
  | cons a tl ih =>
    intro base j h
    simp only [List.foldl_cons]
    rw [ih _ j (fun p hp => h p (List.mem_cons_of_mem _ hp))]
    have hne := h a (List.mem_cons_self _ _)
    rw [if_neg (Ne.symm hne)]

theorem writeList_at (dark : Bool) :
    ∀ (ord : List Nat) (vals : List Nat) (base : Nat → Tile) (t : Nat),
      ord.Nodup → t < ord.length → t < vals.length →
      (ord.zip vals).foldl (fun page iv => fun j =>
          if j = iv.1 then cimb_encode_tile dark iv.2 else page j) base
        (ord.getD t 0)
        = cimb_encode_tile dark (vals.getD t 0) := by
  intro ord
  induction ord with
  | nil => intro vals base t _ ht _; simp at ht
  | cons o ord' ih =>
    intro vals base t hnd ht hv
    cases vals with
    | nil => simp at hv
    | cons v vals' =>
      simp only [List.zip_cons_cons, List.foldl_cons]
      cases t with
      | zero =>
        simp only [List.getD_cons_zero]
        rw [writeList_notMem dark (ord'.zip vals') _ o ?_]
        · simp
        · rintro ⟨p1, p2⟩ hp
          have hmem := (List.of_mem_zip hp).1
          have ho := (List.nodup_cons.mp hnd).1
          intro heq
          have hpo : p1 = o := heq
          subst hpo
          exact ho hmem
      | succ t' =>
        simp only [List.getD_cons_succ]
        exact ih vals' _ t' (List.nodup_cons.mp hnd).2 (by simpa using ht)
          (by simpa using hv)

theorem encode_page_at (dark : Bool) (ecc : Nat) (fountain : Bool) (P : List Nat)
    (i : Nat) (hi : i < num_cells) :
    encode_page dark ecc fountain P i
      = cimb_encode_tile dark
          ((pageGroups (encode_instream ecc fountain P)).getD
            (interleaveLookup i) 0) := by
  unfold encode_page writePage
  have hordlen := interleaveOrder_length
  have hglen := pageGroups_length (encode_instream ecc fountain P)
  have hlk := interleaveLookup_lt i hi
  have h := writeList_at dark interleaveOrder
    (pageGroups (encode_instream ecc fountain P))
    (fun _ => cimb_encode_tile dark 0) (interleaveLookup i)
    interleaveOrder_nodup (by omega) (by omega)
  rw [interleaveOrder_getD _ hlk, orderFun_interleaveLookup i hi] at h
  exact h

theorem decode_value_at (dark : Bool) (ecc : Nat) (fountain : Bool)
    (P : List Nat) (i : Nat) (hi : i < num_cells) :
    decodeCellValue (encode_page dark ecc fountain P i)
      = (pageGroups (encode_instream ecc fountain P)).getD
          (interleaveLookup i) 0 := by
  rw [encode_page_at dark ecc fountain P i hi]
  exact decodeCellValue_encode_tile dark _
    (getD_lt_64 _ (pageGroups_lt _) _)

/-! ### Sorting the decode dictionary -/

theorem sortedDecoding_eq (page : Nat → Tile) (visitOrder : List Nat)
    (hperm : visitOrder.Perm (List.range num_cells)) :
    sortedDecoding page visitOrder
      = (List.range num_cells).map (fun i => (i, decodeCellValue (page i))) := by
  unfold sortedDecoding decodeIterPairs
  set f : Nat → Nat × Nat := fun i => (i, decodeCellValue (page i)) with hf
  have hpm : (visitOrder.map f).Perm ((List.range num_cells).map f) :=
    hperm.map f
  have hms := List.mergeSort_perm (visitOrder.map f)
    (fun a b => decide (a.1 ≤ b.1))
  have hp2 := hms.trans hpm
  have hsorted : ((visitOrder.map f).mergeSort
      (fun a b => decide (a.1 ≤ b.1))).Pairwise (fun a b => a.1 ≤ b.1) := by
    have h := @List.sorted_mergeSort (Nat × Nat) (fun a b => decide (a.1 ≤ b.1))
      (fun a b c h1 h2 => by
        simp only [decide_eq_true_eq] at *
        omega)
      (fun a b => by
        simp only [Bool.or_eq_true, decide_eq_true_eq]
        omega)
      (visitOrder.map f)
    exact h.imp (fun hab => by simpa using hab)
  have hkeys : (((visitOrder.map f).mergeSort
      (fun a b => decide (a.1 ≤ b.1))).map Prod.fst).Nodup := by
    have hkp := hp2.map Prod.fst
    rw [List.map_map] at hkp
    have hid : (List.range num_cells).map (Prod.fst ∘ f) = List.range num_cells := by
      have : Prod.fst ∘ f = id := rfl
      rw [this, List.map_id]
    rw [hid] at hkp
    exact hkp.nodup_iff.mpr (List.nodup_range _)
  have hne : ((visitOrder.map f).mergeSort
      (fun a b => decide (a.1 ≤ b.1))).Pairwise (fun a b => a.1 ≠ b.1) :=
    List.pairwise_map.mp hkeys
  have hlt := (hsorted.and hne).imp
    (fun hab => Nat.lt_of_le_of_ne hab.1 hab.2)
  have hlt2 : ((List.range num_cells).map f).Pairwise
      (fun a b => a.1 < b.1) := by
    rw [List.pairwise_map]
    exact (List.pairwise_lt_range _).imp (fun hab => hab)
  exact eq_of_perm_keySorted Prod.fst _ _ hp2 hlt hlt2

/-! ### The de-interleaving writer -/

theorem writerGroups_eq (groups : List Nat) (hlen : groups.length = num_cells) :
    writerGroups ((List.range num_cells).map (fun i =>
        (i, groups.getD (interleaveLookup i) 0))) = groups := by
  unfold writerGroups
  have hblk : ∀ blk ∈ List.range (INTERLEAVE_PARTITIONS * INTERLEAVE_BLOCKS),
      ((((List.range num_cells).map (fun i =>
          (i, groups.getD (interleaveLookup i) 0))).filter
        (fun iv => decide (blockOf iv.1 = blk))).map (fun iv => iv.2))
      = (List.range block_size).map
          (fun k => groups.getD (blk * block_size + k) 0) := by
    intro blk hbm
    rw [List.mem_range] at hbm
    rw [List.filter_map, List.map_map]
    have hcomp : ((fun iv : Nat × Nat => decide (blockOf iv.1 = blk)) ∘
        (fun i => (i, groups.getD (interleaveLookup i) 0)))
          = fun i => decide (blockOf i = blk) := rfl
    rw [hcomp, filter_blockOf_eq blk hbm, List.map_map]
    apply List.map_congr_left
    intro k hk
    rw [List.mem_range] at hk
    simp only [Function.comp]
    rw [interleaveLookup_stripe blk k hbm hk]
  rw [List.map_congr_left hblk]
  exact flatten_slices 0 (INTERLEAVE_PARTITIONS * INTERLEAVE_BLOCKS) block_size
    groups (by
      rw [hlen, block_size_eq]
      norm_num [num_cells, INTERLEAVE_PARTITIONS, INTERLEAVE_BLOCKS])

/-- The de-interleaved group stream of a full decode equals the group
stream that was painted onto the page. -/
theorem page_roundtrip (dark : Bool) (ecc : Nat) (fountain : Bool)
    (P : List Nat) (visitOrder : List Nat)
    (hperm : visitOrder.Perm (List.range num_cells)) :
    writerGroups (sortedDecoding (encode_page dark ecc fountain P) visitOrder)
      = pageGroups (encode_instream ecc fountain P) := by
  rw [sortedDecoding_eq _ _ hperm]
  have hpt : ∀ i ∈ List.range num_cells,
      (i, decodeCellValue (encode_page dark ecc fountain P i))
        = (i, (pageGroups (encode_instream ecc fountain P)).getD
            (interleaveLookup i) 0) := by
    intro i hi
    rw [List.mem_range] at hi
    rw [decode_value_at dark ecc fountain P i hi]
  rw [List.map_congr_left hpt]
  exact writerGroups_eq _ (pageGroups_length _)

/-! ### The bit-packing layer -/

theorem page_bytes_eq : page_bytes = 9300 := by
  norm_num [page_bytes, num_cells, BITS_PER_OP, BITS_PER_SYMBOL, BITS_PER_COLOR]

theorem allBits_length (bytes : List Nat) :
    (allBits bytes).length = bytes.length * 8 := by
  unfold allBits
  rw [flatten_length_const 8 _ ?_, List.length_map]
  intro c hc
  rw [List.mem_map] at hc
  obtain ⟨b, _, rfl⟩ := hc
  rfl

theorem allBits_append (a b : List Nat) :
    allBits (a ++ b) = allBits a ++ allBits b := by
  unfold allBits
  rw [List.map_append, List.flatten_append]

theorem allBits_replicate_zero (m : Nat) :
    allBits (List.replicate m 0) = List.replicate (m * 8) false := by
  induction m with
  | zero => rfl
  | succ n ih =>
    rw [List.replicate_succ]
    show allBits (0 :: List.replicate n 0) = _
    unfold allBits
    rw [List.map_cons, List.flatten_cons]
    unfold allBits at ih
    rw [ih, byteBits_zero, ← List.replicate_add]
    congr 1
    ring

theorem groupsToBytes_pageGroups (s : List Nat) (hlen : s.length ≤ page_bytes)
    (hbytes : ∀ b ∈ s, b < 256) :
    groupsToBytes (pageGroups s) = s ++ List.replicate (page_bytes - s.length) 0 := by
  have hpb : page_bytes = 9300 := page_bytes_eq
  have hop : BITS_PER_OP = 6 := rfl
  have h8 : (allBits s).length = s.length * 8 := allBits_length s
  have hgb : (pageGroups s).map groupBits
      = padChunkN false BITS_PER_OP num_cells (allBits s) := by
    unfold pageGroups
    rw [List.map_map]
    calc (padChunkN false BITS_PER_OP num_cells (allBits s)).map
          (groupBits ∘ bitsVal)
        = (padChunkN false BITS_PER_OP num_cells (allBits s)).map id := by
          apply List.map_congr_left
          intro c hc
          have hcl := padChunkN_chunks_length false BITS_PER_OP num_cells _ c hc
          exact groupBits_bitsVal_len c (by rw [← hop]; exact hcl)
      _ = _ := List.map_id _
  have hflat : ((pageGroups s).map groupBits).flatten
      = allBits (s ++ List.replicate (page_bytes - s.length) 0) := by
    rw [hgb, padChunkN_flatten false BITS_PER_OP num_cells (allBits s) ?_]
    · rw [allBits_append, allBits_replicate_zero]
      congr 2
      rw [h8, hop, hpb]
      norm_num [num_cells]
      omega
    · rw [h8, hop]
      norm_num [num_cells]
      rw [hpb] at hlen
      omega
  unfold groupsToBytes
  rw [hflat]
  have hs'len : (s ++ List.replicate (page_bytes - s.length) 0).length
      = page_bytes := by
    rw [List.length_append, List.length_replicate]
    omega
  have hchunk : chunkN 8 page_bytes
      (allBits (s ++ List.replicate (page_bytes - s.length) 0))
      = (s ++ List.replicate (page_bytes - s.length) 0).map byteBits := by
    have h := chunkN_flatten 8
      ((s ++ List.replicate (page_bytes - s.length) 0).map byteBits) ?_
    · rw [List.length_map, hs'len] at h
      exact h
    · intro c hc
      rw [List.mem_map] at hc
      obtain ⟨b, _, rfl⟩ := hc
      rfl
  rw [hchunk, List.map_map]
  calc (s ++ List.replicate (page_bytes - s.length) 0).map (bitsVal ∘ byteBits)
      = (s ++ List.replicate (page_bytes - s.length) 0).map id := by
        apply List.map_congr_left
        intro b hb
        rcases List.mem_append.mp hb with h | h
        · exact bitsVal_byteBits b (hbytes b h)
        · have hb0 : b = 0 := List.eq_of_mem_replicate h
          subst hb0
          exact bitsVal_byteBits 0 (by norm_num)
    _ = _ := List.map_id _

/-! ### The Reed-Solomon layer -/

theorem le_ceil_mul (x c : Nat) (hc : 0 < c) : x ≤ (x + c - 1) / c * c := by
  rcases Nat.eq_zero_or_pos x with rfl | hx
  · simp
  · obtain ⟨y, rfl⟩ : ∃ y, x = y + 1 := ⟨x - 1, by omega⟩
    have h1 : y + 1 + c - 1 = y + c := by omega
    rw [h1, Nat.add_div_right _ hc, Nat.add_mul, Nat.one_mul]
    have h2 := Nat.div_add_mod y c
    have h3 := Nat.mod_lt y hc
    rw [Nat.mul_comm (y / c) c]
    generalize hA : c * (y / c) = A at h2 ⊢
    generalize hB : y % c = B at h2 h3
    omega

theorem ceil_le (x c m : Nat) (hc : 0 < c) (h : x ≤ m * c) :
    (x + c - 1) / c ≤ m := by
  have h1 : x + c - 1 ≤ c * m + (c - 1) := by
    rw [Nat.mul_comm]
    omega
  calc (x + c - 1) / c ≤ (c * m + (c - 1)) / c := Nat.div_le_div_right h1
    _ = m + (c - 1) / c := Nat.mul_add_div hc m (c - 1)
    _ = m := by rw [Nat.div_eq_of_lt (by omega), Nat.add_zero]

theorem replicate_flatten {α : Type} (m k : Nat) (x : α) :
    (List.replicate m (List.replicate k x)).flatten = List.replicate (m * k) x := by
  induction m with
  | zero => simp
  | succ n ih =>
    rw [List.replicate_succ, List.flatten_cons, ih, ← List.replicate_add]
    congr 1
    rw [Nat.succ_mul]
    omega

theorem rs_encode_stream_length (ecc : Nat) (hecc : ecc ≤ 155) (F : List Nat) :
    (rs_encode_stream ecc F).length = rsBlockCount ecc F.length * 155 := by
  unfold rs_encode_stream
  rw [flatten_length_const 155 _ ?_, List.length_map, padChunkN_length]
  intro c hc
  rw [List.mem_map] at hc
  obtain ⟨blk, hblk, rfl⟩ := hc
  rw [List.length_append,
    padChunkN_chunks_length 0 (155 - ecc) (rsBlockCount ecc F.length) F blk hblk,
    List.length_replicate]
  omega

theorem rs_roundtrip (ecc : Nat) (hecc : ecc < 155) (F : List Nat)
    (hF : F.length ≤ 60 * (155 - ecc)) :
    rs_decode_stream ecc (rs_encode_stream ecc F
        ++ List.replicate (9300 - rsBlockCount ecc F.length * 155) 0)
      = F ++ List.replicate (60 * (155 - ecc) - F.length) 0 := by
  have hc0 : 0 < 155 - ecc := by omega
  have hK60 : rsBlockCount ecc F.length ≤ 60 := ceil_le _ _ _ hc0 (by omega)
  have hFK : F.length ≤ rsBlockCount ecc F.length * (155 - ecc) :=
    le_ceil_mul _ _ hc0
  have henc_len := rs_encode_stream_length ecc (by omega) F
  have htail : 9300 - rsBlockCount ecc F.length * 155
      = (60 - rsBlockCount ecc F.length) * 155 := by
    have h60 := hK60
    generalize rsBlockCount ecc F.length = K at h60 ⊢
    omega
  unfold rs_decode_stream
  have hlen_all : (rs_encode_stream ecc F
      ++ List.replicate (9300 - rsBlockCount ecc F.length * 155) 0).length
      = 60 * 155 := by
    rw [List.length_append, henc_len, List.length_replicate]
    have h60 := hK60
    generalize rsBlockCount ecc F.length = K at h60 ⊢
    omega
  rw [hlen_all, Nat.mul_div_cancel _ (by norm_num)]
  have hstream : rs_encode_stream ecc F
      ++ List.replicate (9300 - rsBlockCount ecc F.length * 155) 0
      = ((padChunkN 0 (155 - ecc) (rsBlockCount ecc F.length) F).map
          (fun blk => blk ++ List.replicate ecc 0)
        ++ List.replicate (60 - rsBlockCount ecc F.length)
            (List.replicate 155 0)).flatten := by
    rw [List.flatten_append]
    congr 1
    rw [replicate_flatten, htail]
  rw [hstream]
  have hblocks : ∀ c ∈ (padChunkN 0 (155 - ecc) (rsBlockCount ecc F.length) F).map
        (fun blk => blk ++ List.replicate ecc 0)
      ++ List.replicate (60 - rsBlockCount ecc F.length) (List.replicate 155 0),
      c.length = 155 := by
    intro c hc
    rcases List.mem_append.mp hc with h | h
    · rw [List.mem_map] at h
      obtain ⟨blk, hblk, rfl⟩ := h
      rw [List.length_append,
        padChunkN_chunks_length 0 (155 - ecc) (rsBlockCount ecc F.length) F blk hblk,
        List.length_replicate]
      omega
    · rw [List.eq_of_mem_replicate h, List.length_replicate]
  have hch := chunkN_flatten 155 _ hblocks
  have hls_len : ((padChunkN 0 (155 - ecc) (rsBlockCount ecc F.length) F).map
      (fun blk => blk ++ List.replicate ecc 0)
    ++ List.replicate (60 - rsBlockCount ecc F.length)
        (List.replicate 155 0)).length = 60 := by
    rw [List.length_append, List.length_map, padChunkN_length,
      List.length_replicate]
    have h60 := hK60
    generalize rsBlockCount ecc F.length = K at h60 ⊢
    omega
  rw [hls_len] at hch
  rw [hch, List.map_append, List.map_map, List.map_replicate]
  have hfirst : (padChunkN 0 (155 - ecc) (rsBlockCount ecc F.length) F).map
      ((fun blk : List Nat => blk.take (155 - ecc)) ∘
        (fun blk => blk ++ List.replicate ecc 0))
      = padChunkN 0 (155 - ecc) (rsBlockCount ecc F.length) F := by
    calc (padChunkN 0 (155 - ecc) (rsBlockCount ecc F.length) F).map
          ((fun blk : List Nat => blk.take (155 - ecc)) ∘
            (fun blk => blk ++ List.replicate ecc 0))
        = (padChunkN 0 (155 - ecc) (rsBlockCount ecc F.length) F).map id := by
          apply List.map_congr_left
          intro blk hblk
          have hbl := padChunkN_chunks_length 0 (155 - ecc)
            (rsBlockCount ecc F.length) F blk hblk
          show (blk ++ List.replicate ecc 0).take (155 - ecc) = blk
          exact List.take_left' hbl
      _ = _ := List.map_id _
  have hsecond : (List.replicate 155 (0 : Nat)).take (155 - ecc)
      = List.replicate (155 - ecc) 0 := by
    rw [List.take_replicate]
    congr 1
    omega
  rw [hfirst, hsecond, List.flatten_append, replicate_flatten,
    padChunkN_flatten 0 (155 - ecc) (rsBlockCount ecc F.length) F hFK,
    List.append_assoc, ← List.replicate_add]
  congr 2
  have hA : rsBlockCount ecc F.length * (155 - ecc) ≤ 60 * (155 - ecc) :=
    Nat.mul_le_mul_right _ hK60
  rw [Nat.sub_mul]
  generalize rsBlockCount ecc F.length * (155 - ecc) = A at hA hFK ⊢
  omega

/-! ### The fountain layer -/

theorem fountainBlockCount_pos (cs : Nat) (hcs : 3 ≤ cs) (len : Nat)
    (hlen : 0 < len) : 0 < fountainBlockCount cs len := by
  unfold fountainBlockCount
  apply Nat.div_pos ?_ (by omega)
  omega

theorem le_fountainBlockCount_mul (cs : Nat) (hcs : 3 ≤ cs) (len : Nat) :
    len ≤ fountainBlockCount cs len * (cs - 2) :=
  le_ceil_mul len (cs - 2) (by omega)

theorem fountainChunk_length (cs : Nat) (hcs : 3 ≤ cs) (P : List Nat) (i : Nat)
    (hi : i < fountainBlockCount cs P.length) :
    (fountainChunk cs P i).length = cs := by
  unfold fountainChunk
  simp only [List.length_cons]
  have hlen := padChunkN_length 0 (cs - 2) (fountainBlockCount cs P.length) P
  have hin : i < (padChunkN 0 (cs - 2) (fountainBlockCount cs P.length) P).length := by
    rw [hlen]; exact hi
  rw [List.getD_eq_getElem?_getD, List.getElem?_eq_getElem hin]
  simp only [Option.getD_some]
  rw [padChunkN_chunks_length 0 (cs - 2) (fountainBlockCount cs P.length) P _
    (List.getElem_mem hin)]
  omega

theorem fountain_encoder_page_length (cs : Nat) (hcs : 3 ≤ cs) (P : List Nat)
    (hn : 0 < fountainBlockCount cs P.length) :
    (fountain_encoder_page cs P).length = FOUNTAIN_BLOCKS * cs := by
  unfold fountain_encoder_page
  rw [flatten_length_const cs _ ?_, List.length_map, List.length_range]
  intro c hc
  rw [List.mem_map] at hc
  obtain ⟨j, _, rfl⟩ := hc
  exact fountainChunk_length cs hcs P _ (Nat.mod_lt _ hn)

theorem find?_range'_mod {β : Type} (n i : Nat) (hi : i < n)
    (h : Nat → β) (key : β → Nat) (hkey : ∀ j, key (h j) = j) :
    ∀ (m s : Nat), s ≤ i → i < s + m →
      ((List.range' s m).map (fun j => h (j % n))).find?
        (fun c => decide (key c = i)) = some (h i) := by
  intro m
  induction m with
  | zero => intro s h1 h2; omega
  | succ m' ih =>
    intro s h1 h2
    rw [List.range'_succ, List.map_cons, List.find?_cons]
    have hs : s % n = s := Nat.mod_eq_of_lt (by omega)
    by_cases hsi : s = i
    · subst hsi
      simp [hkey, hs]
    · have hfalse : (decide (key (h (s % n)) = i)) = false := by
        simp [hkey, hs, hsi]
      rw [hfalse]
      exact ih (s + 1) (by omega) (by omega)

theorem fountain_roundtrip (cs : Nat) (hcs : 3 ≤ cs) (P : List Nat)
    (hP : 0 < P.length)
    (hn10 : fountainBlockCount cs P.length ≤ FOUNTAIN_BLOCKS) :
    fountain_decoder cs (fountain_encoder_page cs P)
      = some (P ++ List.replicate
          (fountainBlockCount cs P.length * (cs - 2) - P.length) 0) := by
  have hn : 0 < fountainBlockCount cs P.length :=
    fountainBlockCount_pos cs hcs P.length hP
  have hlen10 : (fountain_encoder_page cs P).length = FOUNTAIN_BLOCKS * cs :=
    fountain_encoder_page_length cs hcs P hn
  have hdiv : (fountain_encoder_page cs P).length / cs = FOUNTAIN_BLOCKS := by
    rw [hlen10, Nat.mul_div_cancel _ (by omega)]
  have hframes : chunkN cs ((fountain_encoder_page cs P).length / cs)
      (fountain_encoder_page cs P)
      = (List.range FOUNTAIN_BLOCKS).map (fun j =>
          fountainChunk cs P (j % fountainBlockCount cs P.length)) := by
    rw [hdiv]
    have h := chunkN_flatten cs ((List.range FOUNTAIN_BLOCKS).map (fun j =>
      fountainChunk cs P (j % fountainBlockCount cs P.length))) ?_
    · rw [List.length_map, List.length_range] at h
      exact h
    · intro c hc
      rw [List.mem_map] at hc
      obtain ⟨j, _, rfl⟩ := hc
      exact fountainChunk_length cs hcs P _ (Nat.mod_lt _ hn)
  unfold fountain_decoder
  rw [hframes]
  simp only []
  rw [List.map_map]
  have hparse : ((fun f : List Nat => (f.getD 0 0, f.getD 1 0, f.drop 2)) ∘
      (fun j => fountainChunk cs P (j % fountainBlockCount cs P.length)))
      = fun j => ((j % fountainBlockCount cs P.length : Nat),
          (fountainBlockCount cs P.length : Nat),
          (padChunkN 0 (cs - 2) (fountainBlockCount cs P.length) P).getD
            (j % fountainBlockCount cs P.length) []) := rfl
  rw [hparse]
  have h10 : List.range FOUNTAIN_BLOCKS
      = 0 :: List.map Nat.succ (List.range 9) := by decide
  have hfind0 : ∀ i < fountainBlockCount cs P.length,
      (List.map (fun j => ((j % fountainBlockCount cs P.length : Nat),
          (fountainBlockCount cs P.length : Nat),
          (padChunkN 0 (cs - 2) (fountainBlockCount cs P.length) P).getD
            (j % fountainBlockCount cs P.length) []))
        (List.range FOUNTAIN_BLOCKS)).find? (fun c => decide (c.1 = i))
      = some ((i : Nat), (fountainBlockCount cs P.length : Nat),
          (padChunkN 0 (cs - 2) (fountainBlockCount cs P.length) P).getD i []) := by
    intro i hi
    have hfind := find?_range'_mod (fountainBlockCount cs P.length) i hi
      (fun j => ((j : Nat), (fountainBlockCount cs P.length : Nat),
        (padChunkN 0 (cs - 2) (fountainBlockCount cs P.length) P).getD j []))
      Prod.fst (fun j => rfl) FOUNTAIN_BLOCKS 0 (by omega)
      (by
        show i < 0 + FOUNTAIN_BLOCKS
        have := hn10
        omega)
    rw [← List.range_eq_range'] at hfind
    simp only [] at hfind
    exact hfind
  split
  · next heq =>
    exfalso
    have hlen := congrArg List.length heq
    rw [List.length_map, List.length_range] at hlen
    simp [FOUNTAIN_BLOCKS] at hlen
  · next f0 tail heq =>
    have heq' := heq
    rw [h10, List.map_cons] at heq'
    have hf0 : f0 = ((0 % fountainBlockCount cs P.length : Nat),
        (fountainBlockCount cs P.length : Nat),
        (padChunkN 0 (cs - 2) (fountainBlockCount cs P.length) P).getD
          (0 % fountainBlockCount cs P.length) []) :=
      (List.cons_eq_cons.mp heq').1.symm
    have hf0n : f0.2.1 = fountainBlockCount cs P.length := by rw [hf0]
    rw [hf0n]
    rw [if_pos ?_]
    · congr 1
      have hpt : ∀ i ∈ List.range (fountainBlockCount cs P.length),
          (Option.map (fun c => c.2.2)
            ((List.map (fun j => ((j % fountainBlockCount cs P.length : Nat),
                (fountainBlockCount cs P.length : Nat),
                (padChunkN 0 (cs - 2) (fountainBlockCount cs P.length) P).getD
                  (j % fountainBlockCount cs P.length) []))
              (List.range FOUNTAIN_BLOCKS)).find?
                (fun c => decide (c.1 = i)))).getD []
          = (padChunkN 0 (cs - 2) (fountainBlockCount cs P.length) P).getD i [] := by
        intro i hi
        rw [List.mem_range] at hi
        rw [hfind0 i hi]
        rfl
      rw [List.map_congr_left hpt]
      have hmapD := map_getD_range ([] : List Nat)
        (padChunkN 0 (cs - 2) (fountainBlockCount cs P.length) P)
      rw [padChunkN_length] at hmapD
      rw [hmapD]
      exact padChunkN_flatten 0 (cs - 2) (fountainBlockCount cs P.length) P
        (le_fountainBlockCount_mul cs hcs P.length)
    · rw [List.all_eq_true]
      intro i hi
      rw [List.mem_range] at hi
      rw [List.any_eq_true]
      refine ⟨((i : Nat), (fountainBlockCount cs P.length : Nat),
          (padChunkN 0 (cs - 2) (fountainBlockCount cs P.length) P).getD i []), ?_, ?_⟩
      · have hi10 : i < FOUNTAIN_BLOCKS := by
          have := hn10
          omega
        rw [List.mem_map]
        refine ⟨i, by rw [List.mem_range]; exact hi10, ?_⟩
        rw [Nat.mod_eq_of_lt hi]
      · simp

/-! ### Byte-range invariants of the stream stages -/

theorem padChunkN_subset {α : Type} (pad : α) (k : Nat) :
    ∀ (n : Nat) (l : List α), ∀ c ∈ padChunkN pad k n l, ∀ x ∈ c, x ∈ l ∨ x = pad := by
  intro n
  induction n with
  | zero => intro l c hc; simp [padChunkN] at hc
  | succ m ih =>
    intro l c hc x hx
    simp only [padChunkN, List.mem_cons] at hc
    rcases hc with rfl | hc
    · rcases List.mem_append.mp hx with h | h
      · exact Or.inl (List.take_subset _ _ h)
      · exact Or.inr (List.eq_of_mem_replicate h)
    · rcases ih (l.drop k) c hc x hx with h | h
      · exact Or.inl (List.drop_subset _ _ h)
      · exact Or.inr h

theorem rs_encode_stream_lt (ecc : Nat) (F : List Nat)
    (hF : ∀ b ∈ F, b < 256) : ∀ b ∈ rs_encode_stream ecc F, b < 256 := by
  intro b hb
  unfold rs_encode_stream at hb
  rw [List.mem_flatten] at hb
  obtain ⟨blk, hblk, hbin⟩ := hb
  rw [List.mem_map] at hblk
  obtain ⟨d, hd, rfl⟩ := hblk
  rcases List.mem_append.mp hbin with h | h
  · rcases padChunkN_subset 0 (155 - ecc) _ F d hd b h with h2 | h2
    · exact hF b h2
    · omega
  · have := List.eq_of_mem_replicate h
    omega

theorem fountain_encoder_page_lt (cs : Nat) (_hcs : 3 ≤ cs) (P : List Nat)
    (hP : ∀ b ∈ P, b < 256) (hn : 0 < fountainBlockCount cs P.length)
    (hn10 : fountainBlockCount cs P.length ≤ FOUNTAIN_BLOCKS) :
    ∀ b ∈ fountain_encoder_page cs P, b < 256 := by
  intro b hb
  unfold fountain_encoder_page at hb
  rw [List.mem_flatten] at hb
  obtain ⟨chunk, hchunk, hbin⟩ := hb
  rw [List.mem_map] at hchunk
  obtain ⟨j, _, rfl⟩ := hchunk
  unfold fountainChunk at hbin
  rcases List.mem_cons.mp hbin with rfl | hbin2
  · have := Nat.mod_lt j hn
    simp only [FOUNTAIN_BLOCKS] at hn10
    omega
  rcases List.mem_cons.mp hbin2 with rfl | hbin3
  · simp only [FOUNTAIN_BLOCKS] at hn10
    omega
  · have hmod := Nat.mod_lt j hn
    have hlen := padChunkN_length 0 (cs - 2) (fountainBlockCount cs P.length) P
    have hin : j % fountainBlockCount cs P.length
        < (padChunkN 0 (cs - 2) (fountainBlockCount cs P.length) P).length := by
      rw [hlen]; exact hmod
    rw [List.getD_eq_getElem?_getD, List.getElem?_eq_getElem hin] at hbin3
    simp only [Option.getD_some] at hbin3
    rcases padChunkN_subset 0 (cs - 2) _ P _ (List.getElem_mem hin) b hbin3 with h | h
    · exact hP b h
    · omega

/-! ### The full round trip -/

theorem fountain_chunk_size_eval (ecc : Nat) :
    fountain_chunk_size ecc = 6 * (155 - ecc) := by
  simp only [fountain_chunk_size, BITS_PER_OP, BITS_PER_SYMBOL, BITS_PER_COLOR,
    FOUNTAIN_BLOCKS]
  omega

/-- Identity-channel round trip of the full model: decode of an encoded
page reproduces the payload followed by zero padding. -/
theorem decode_encode_model (dark : Bool) (ecc : Nat) (fountain : Bool)
    (P : List Nat) (visitOrder : List Nat)
    (hecc : ecc < 155)
    (hbytes : ∀ b ∈ P, b < 256)
    (hperm : visitOrder.Perm (List.range num_cells))
    (hfit : if fountain
      then 0 < P.length ∧
        fountainBlockCount (fountain_chunk_size ecc) P.length ≤ FOUNTAIN_BLOCKS
      else P.length ≤ 60 * (155 - ecc)) :
    decode_model ecc fountain (encode_page dark ecc fountain P) visitOrder
      = some (P ++ List.replicate (roundtrip_pad ecc fountain P.length) 0) := by
  have hcseq := fountain_chunk_size_eval ecc
  have hcs3 : 3 ≤ fountain_chunk_size ecc := by omega
  unfold decode_model decode_outstream
  rw [page_roundtrip dark ecc fountain P visitOrder hperm]
  cases fountain with
  | false =>
    simp only [Bool.false_eq_true, if_false] at hfit ⊢
    simp only [encode_instream, Bool.false_eq_true, if_false]
    unfold roundtrip_pad
    simp only [Bool.false_eq_true, if_false]
    by_cases hecc0 : ecc = 0
    · subst hecc0
      simp only [ne_eq, not_true_eq_false, if_false]
      rw [groupsToBytes_pageGroups P (by rw [page_bytes_eq]; omega) hbytes]
      rw [page_bytes_eq]
    · rw [if_pos hecc0, if_pos hecc0]
      have hlenenc := rs_encode_stream_length ecc (by omega) P
      have hK60 : rsBlockCount ecc P.length ≤ 60 :=
        ceil_le _ _ _ (by omega) (by omega)
      rw [groupsToBytes_pageGroups _ ?_ (rs_encode_stream_lt ecc P hbytes)]
      · rw [hlenenc, page_bytes_eq]
        rw [rs_roundtrip ecc hecc P hfit]
      · rw [hlenenc, page_bytes_eq]
        have h60 := hK60
        generalize rsBlockCount ecc P.length = K at h60 ⊢
        omega
  | true =>
    simp only [if_true] at hfit ⊢
    obtain ⟨hP, hn10⟩ := hfit
    have hn : 0 < fountainBlockCount (fountain_chunk_size ecc) P.length :=
      fountainBlockCount_pos _ hcs3 _ hP
    have hfeslen : (fountain_encoder_page (fountain_chunk_size ecc) P).length
        = 60 * (155 - ecc) := by
      rw [fountain_encoder_page_length _ hcs3 P hn, hcseq, FOUNTAIN_BLOCKS]
      ring
    have hfesbytes := fountain_encoder_page_lt (fountain_chunk_size ecc) hcs3 P
      hbytes hn hn10
    have hrsOut : (if ecc ≠ 0
        then rs_decode_stream ecc (groupsToBytes (pageGroups
          (encode_instream ecc true P)))
        else groupsToBytes (pageGroups (encode_instream ecc true P)))
        = fountain_encoder_page (fountain_chunk_size ecc) P := by
      simp only [encode_instream, if_true]
      by_cases hecc0 : ecc = 0
      · subst hecc0
        simp only [ne_eq, not_true_eq_false, if_false]
        rw [groupsToBytes_pageGroups _ (by rw [page_bytes_eq, hfeslen]; try omega)
          hfesbytes]
        rw [hfeslen, page_bytes_eq]
        norm_num
      · rw [if_pos hecc0, if_pos hecc0]
        have hlenenc := rs_encode_stream_length ecc (by omega)
          (fountain_encoder_page (fountain_chunk_size ecc) P)
        have hK60 : rsBlockCount ecc
            (fountain_encoder_page (fountain_chunk_size ecc) P).length ≤ 60 := by
          rw [hfeslen]
          exact ceil_le _ _ _ (by omega) (by omega)
        rw [groupsToBytes_pageGroups _ ?_
          (rs_encode_stream_lt ecc _ hfesbytes)]
        · rw [hlenenc, page_bytes_eq]
          have h := rs_roundtrip ecc hecc
            (fountain_encoder_page (fountain_chunk_size ecc) P)
            (by rw [hfeslen])
          rw [h, hfeslen]
          norm_num
        · rw [hlenenc, page_bytes_eq]
          have h60 := hK60
          generalize rsBlockCount ecc
            (fountain_encoder_page (fountain_chunk_size ecc) P).length = K at h60 ⊢
          omega
    rw [hrsOut]
    rw [fountain_roundtrip (fountain_chunk_size ecc) hcs3 P hP hn10]
    unfold roundtrip_pad
    simp only [if_true]

/-- C1 (amended): for every payload `P` that fits on one page, palette
choice `dark`, ecc level, fountain flag and flood visit order, decoding
the page produced by encode with the same parameters over the identity
channel (no deskew) yields `P` followed by zero padding — to the page's
data capacity `60 * (155 - ecc)` bytes without the fountain layer, to a
source-block boundary with it — and yields exactly `P` precisely when
that padding is empty (the payload exactly fills the capacity or a
block boundary). -/
theorem C1_roundtrip_padded (dark : Bool) (ecc : Nat) (fountain : Bool)
    (P : List Nat) (visitOrder : List Nat)
    (hecc : ecc < 155)
    (hbytes : ∀ b ∈ P, b < 256)
    (hperm : visitOrder.Perm (List.range num_cells))
    (hfit : if fountain
      then 0 < P.length ∧
        fountainBlockCount (fountain_chunk_size ecc) P.length ≤ FOUNTAIN_BLOCKS
      else P.length ≤ 60 * (155 - ecc)) :
    decode_model ecc fountain (encode_page dark ecc fountain P) visitOrder
      = some (P ++ List.replicate (roundtrip_pad ecc fountain P.length) 0) ∧
    (decode_model ecc fountain (encode_page dark ecc fountain P) visitOrder
        = some P ↔ roundtrip_pad ecc fountain P.length = 0) := by
  have h := decode_encode_model dark ecc fountain P visitOrder hecc hbytes hperm hfit
  refine ⟨h, ?_⟩
  rw [h]
  constructor
  · intro heq
    rw [Option.some_inj] at heq
    have hlen := congrArg List.length heq
    rw [List.length_append, List.length_replicate] at hlen
    omega
  · intro hpad
    rw [hpad]
    simp

/-- Witness for C1 (amended): the two-byte payload `[7, 42]` at the
default ecc 30, dark palette, no fountain, canonical visit order. -/
theorem C1_roundtrip_padded_witness :
    ((30 : Nat) < 155) ∧
    (∀ b ∈ ([7, 42] : List Nat), b < 256) ∧
    (List.range num_cells).Perm (List.range num_cells) ∧
    (if (false : Bool)
      then 0 < ([7, 42] : List Nat).length ∧
        fountainBlockCount (fountain_chunk_size 30) ([7, 42] : List Nat).length
          ≤ FOUNTAIN_BLOCKS
      else ([7, 42] : List Nat).length ≤ 60 * (155 - 30)) ∧
    (decode_model 30 false (encode_page true 30 false [7, 42])
        (List.range num_cells)
      = some ([7, 42] ++ List.replicate
          (roundtrip_pad 30 false ([7, 42] : List Nat).length) 0) ∧
    (decode_model 30 false (encode_page true 30 false [7, 42])
        (List.range num_cells)
        = some [7, 42] ↔ roundtrip_pad 30 false ([7, 42] : List Nat).length = 0)) :=
  ⟨by decide, by decide, List.Perm.refl _, by decide,
    C1_roundtrip_padded true 30 false [7, 42] (List.range num_cells)
      (by decide) (by decide) (List.Perm.refl _) (by decide)⟩

/-- C1 counterexample: the claim as stated — `decode(encode(P, d, e, f),
d, e, f) == P` over the identity channel — is false at the one-byte
payload `[1]` with the default ecc 30, dark palette and no fountain:
the decoded output is the payload followed by 7499 zero-padding bytes
filling the page's 7500-byte data capacity, not the payload alone. -/
theorem C1_roundtrip_counterexample :
    decode_model 30 false (encode_page true 30 false [1]) (List.range num_cells)
      ≠ some [1] := by
  rw [decode_encode_model true 30 false [1] (List.range num_cells)
    (by decide) (by decide) (List.Perm.refl _) (by decide)]
  intro h
  rw [Option.some_inj] at h
  have hlen := congrArg List.length h
  rw [List.length_append, List.length_replicate] at hlen
  have hpad : roundtrip_pad 30 false ([1] : List Nat).length = 7499 := by decide
  rw [hpad] at hlen
  simp at hlen

end Cimbar
